import Mathlib

set_option maxHeartbeats 1000000
set_option maxRecDepth 100000

/-!
Verification development for the proof-of-work core implemented in
`src/interactive/bitcoin-pow-demo/src/main.ts`.

Modelling conventions (shallow embedding of the TypeScript source):
* Hex strings are modelled as `List Char`.
* JavaScript numbers holding unsigned integer values are modelled as `Nat`.
  Every integer reached by the verified claims stays below `2^31`, where the
  JS 32-bit signed bitwise operators (`>>`, `&`, `|`, `<<`) agree with the
  corresponding `Nat` operators; the scrypt core applies the `>>> 0` /
  typed-array coercions of the source as explicit `% 2^32`.
* `Number.prototype.toString(16)` / `BigInt.prototype.toString(16)` are
  modelled by `natToHex`, a minimal-length lowercase big-endian hex rendering
  computed from a fixed 70-digit window; every value rendered by the embedded
  code is below `16^70` (targets are below `2^256` and the scaled values in
  `difficultyToBits` below `2^256 * 10^6 < 16^70`), so on the reachable
  domain this is exactly the JS rendering.
* `parseInt(s, 16)` is modelled by `parseInt16`, returning `none` for NaN.
* Wall-clock time (`performance.now()`), the cancellation flag
  (`shouldStopMining`) and the double-SHA-256 primitive (an external Web
  Crypto call) are oracles passed to `mineBlock` as functions; the time
  oracle is consumed in source order of the `performance.now()` calls and
  the cancellation oracle is sampled once per completed `await`, matching
  JavaScript's run-to-completion scheduling.
-/

/-- One lowercase hex digit, as produced by JS `toString(16)`. -/
def hexChar (n : Nat) : Char :=
  if n < 10 then Char.ofNat (48 + n) else Char.ofNat (87 + n)

/-- Numeric value of a hex digit character (upper or lower case), `none` otherwise. -/
def hexDigitVal (c : Char) : Option Nat :=
  if 48 ≤ c.toNat ∧ c.toNat ≤ 57 then some (c.toNat - 48)
  else if 97 ≤ c.toNat ∧ c.toNat ≤ 102 then some (c.toNat - 87)
  else if 65 ≤ c.toNat ∧ c.toNat ≤ 70 then some (c.toNat - 55)
  else none

def isHexDigitChar (c : Char) : Bool := (hexDigitVal c).isSome

/-- Big-endian hex rendering of `n` padded/truncated to exactly `w` digits. -/
def natToHexFixed (w n : Nat) : List Char :=
  (List.range w).map (fun i => hexChar (n / 16 ^ (w - 1 - i) % 16))

/-- JS `n.toString(16)` for a nonnegative integer `n < 16^70`: minimal-length
lowercase hex, with `0` rendered as `"0"`. -/
def natToHex (n : Nat) : List Char :=
  let l := (natToHexFixed 70 n).dropWhile (fun c => c = '0')
  if l.isEmpty then ['0'] else l

/-- JS `BigInt.prototype.toString(16)`, with a leading minus sign for negatives. -/
def intToHex (v : Int) : List Char :=
  if v < 0 then '-' :: natToHex v.natAbs else natToHex v.toNat

/-- JS `String.prototype.padStart(w, c)` (no-op when already at least `w` long). -/
def padStart (w : Nat) (c : Char) (s : List Char) : List Char :=
  List.replicate (w - s.length) c ++ s

/-- JS `String.prototype.padEnd(w, c)`. -/
def padEnd (w : Nat) (c : Char) (s : List Char) : List Char :=
  s ++ List.replicate (w - s.length) c

/-- Value of a list of hex digit characters read big-endian. -/
def hexDigitsVal (l : List Char) : Nat :=
  l.foldl (fun a c => 16 * a + ((hexDigitVal c).getD 0)) 0

/-- JS `parseInt(s, 16)`: trims leading whitespace, accepts an optional sign
and an optional `0x`/`0X` prefix, parses the longest hex-digit prefix, and
yields NaN (`none`) when no digit is found. -/
def parseInt16 (s : List Char) : Option Int :=
  let s1 := s.dropWhile (fun c => c.isWhitespace)
  let sign : Int := if s1.headD ' ' = '-' then -1 else 1
  let s2 := if s1.headD ' ' = '-' ∨ s1.headD ' ' = '+' then s1.tail else s1
  let s3 := if s2.headD ' ' = '0' ∧ (s2.tail.headD ' ' = 'x' ∨ s2.tail.headD ' ' = 'X')
    then s2.tail.tail else s2
  let ds := s3.takeWhile isHexDigitChar
  if ds.isEmpty then none else some (sign * (hexDigitsVal ds : Int))

/-- The `Uint8Array` store coercion (ToUint8): NaN becomes `0`, other values
are taken mod 256. -/
def toUint8 (v : Option Int) : Nat :=
  match v with
  | none => 0
  | some i => (i % 256).toNat

/-- `hexToBytes` from the source: one byte per 2-character slice; a trailing
odd character is written past the end of the typed array and hence dropped. -/
def hexToBytes (hex : List Char) : List Nat :=
  (List.range (hex.length / 2)).map (fun k => toUint8 (parseInt16 ((hex.drop (2 * k)).take 2)))

/-- One byte rendered as two lowercase hex characters. -/
def byteToHex (b : Nat) : List Char := padStart 2 '0' (natToHex b)

/-- `bytesToHex` from the source. -/
def bytesToHex (bytes : List Nat) : List Char := (bytes.map byteToHex).flatten

/-- `reverseBytes` from the source. -/
def reverseBytes (bytes : List Nat) : List Nat := bytes.reverse

/-- JS `BigInt('0x' ++ s)`: defined exactly when `s` is a nonempty string of
hex digits, otherwise a SyntaxError (`none`). -/
def bigIntOfHex (s : List Char) : Option Nat :=
  if s.isEmpty then none
  else if s.all isHexDigitChar then some (hexDigitsVal s) else none

/-- Maximum target (difficulty 1) compact bits, from the source constants. -/
def MAX_TARGET_BITS : Nat := 0x1d00ffff

/-- `bitsToTarget` from the source (compact nBits to 64-char hex target).
For the values reachable in the verified claims `bits < 2^31`, where the JS
signed operators `>>`/`&` agree with the `Nat` operators used here. -/
def bitsToTarget (bits : Nat) : List Char :=
  let exponent := (bits >>> 24) &&& 0xff
  let coefficient := if bits &&& 0x800000 ≠ 0 then 0 else bits &&& 0x7fffff
  let target : List Char :=
    if exponent ≤ 3 then
      padStart 64 '0' (natToHex (coefficient >>> (8 * (3 - exponent))))
    else
      let coeffHex := padStart 6 '0' (natToHex coefficient)
      let shiftBytes := exponent - 3
      let coeffPosition : Int := 64 - (shiftBytes * 2 : Nat) - 6
      if coeffPosition < 0 then List.replicate 64 'f'
      else List.replicate coeffPosition.toNat '0' ++ coeffHex ++ List.replicate (shiftBytes * 2) '0'
  target.take 64

/-- `targetToBits` from the source (64-char hex target to compact nBits).
`parseInt` NaN behaves as 0 under the subsequent JS bitwise operators, which
`getD 0 |>.toNat` reproduces; all inputs reached by the verified claims parse
to nonnegative values. -/
def targetToBits (targetHex : List Char) : Nat :=
  let stripped0 := targetHex.dropWhile (fun c => c = '0')
  let stripped1 := if stripped0.isEmpty then ['0'] else stripped0
  let stripped := if stripped1.length % 2 ≠ 0 then '0' :: stripped1 else stripped1
  let numBytes := stripped.length / 2
  let coeffHex := padEnd 6 '0' (stripped.take 6)
  let coefficient := ((parseInt16 coeffHex).getD 0).toNat
  if coefficient &&& 0x800000 ≠ 0 then
    ((numBytes + 1) <<< 24) ||| (coefficient >>> 8)
  else
    (numBytes <<< 24) ||| coefficient

/-- `hashMeetsTarget` from the source: compare the two hex strings as big
integers. All call sites pass well-formed hex, where `BigInt` succeeds. -/
def hashMeetsTarget (hashHex targetHex : List Char) : Bool :=
  decide ((bigIntOfHex hashHex).getD 0 ≤ (bigIntOfHex targetHex).getD 0)

/-- Block header record from the source (`BlockHeader` interface). The two
hash fields are arbitrary strings; the numeric fields are JS numbers holding
unsigned integers. -/
structure BlockHeader where
  version : Nat
  previousBlockHash : List Char
  merkleRoot : List Char
  timestamp : Nat
  bits : Nat
  nonce : Nat
deriving Repr, DecidableEq

/-- The store `DataView.setUint32(_, v, true)`: the four little-endian bytes
of `v mod 2^32` (ToUint32 followed by byte extraction). -/
def le32 (v : Nat) : List Nat :=
  [v % 256, v / 2 ^ 8 % 256, v / 2 ^ 16 % 256, v / 2 ^ 24 % 256]

/-- The 32-byte field copy of `serializeBlockHeader`: byte `i` is
`bytes[i] || 0`, so missing bytes become 0 and extra bytes are ignored. -/
def hash32 (s : List Char) : List Nat :=
  (List.range 32).map (fun i => (hexToBytes s).getD i 0)

/-- `serializeBlockHeader` from the source: the fixed 80-byte layout
(version, prevHash, merkleRoot, timestamp, bits, nonce). -/
def serializeBlockHeader (header : BlockHeader) : List Nat :=
  le32 header.version ++ hash32 header.previousBlockHash ++ hash32 header.merkleRoot
    ++ le32 header.timestamp ++ le32 header.bits ++ le32 header.nonce

/-- The rotate helper `R` of `salsa20_8`: JS
`((a << b) | (a >>> (32 - b))) >>> 0` on a sum `a` of two uint32 values. -/
def R (a b : Nat) : Nat :=
  ((a <<< b) % 2 ^ 32) ||| ((a % 2 ^ 32) >>> (32 - b))

/-- One add-rotate-xor line of `salsa20_8`:
`x[t] ^= R(x[u] + x[v], rot)` on the 16-word working state. -/
def qop (x : List Nat) (t : Nat × Nat × Nat × Nat) : List Nat :=
  x.set t.1 ((x.getD t.1 0) ^^^ R ((x.getD t.2.1 0) + (x.getD t.2.2.1 0)) t.2.2.2)

/-- The 32 add-rotate-xor lines of one column round plus one row round of
`salsa20_8`, in source order. -/
def salsaRoundOps : List (Nat × Nat × Nat × Nat) :=
  [(4, 0, 12, 7), (8, 4, 0, 9), (12, 8, 4, 13), (0, 12, 8, 18),
   (9, 5, 1, 7), (13, 9, 5, 9), (1, 13, 9, 13), (5, 1, 13, 18),
   (14, 10, 6, 7), (2, 14, 10, 9), (6, 2, 14, 13), (10, 6, 2, 18),
   (3, 15, 11, 7), (7, 3, 15, 9), (11, 7, 3, 13), (15, 11, 7, 18),
   (1, 0, 3, 7), (2, 1, 0, 9), (3, 2, 1, 13), (0, 3, 2, 18),
   (6, 5, 4, 7), (7, 6, 5, 9), (4, 7, 6, 13), (5, 4, 7, 18),
   (11, 10, 9, 7), (8, 11, 10, 9), (9, 8, 11, 13), (10, 9, 8, 18),
   (12, 15, 14, 7), (13, 12, 15, 9), (14, 13, 12, 13), (15, 14, 13, 18)]

/-- `salsa20_8` from the source: copy the 16 input words, apply 4 double
rounds, then add the original input with wrapping 32-bit addition. Reads of
the `Uint32Array` input carry its `< 2^32` invariant as an explicit mod. -/
def salsa20_8 (B : List Nat) : List Nat :=
  let x0 := (List.range 16).map (fun i => B.getD i 0 % 2 ^ 32)
  let xf := (fun x => salsaRoundOps.foldl qop x)^[4] x0
  (List.range 16).map (fun i => (B.getD i 0 % 2 ^ 32 + xf.getD i 0) % 2 ^ 32)

/-- `scryptBlockMix` from the source: accumulator `X` starts from the last
16-word sub-block; each sub-block is XORed into `X`, `X` is permuted by
`salsa20_8` and recorded in `Y`; the output is `Y`'s even-indexed blocks
followed by its odd-indexed blocks. -/
def scryptBlockMix (B : List Nat) (r : Nat) : List Nat :=
  let X0 := (List.range 16).map (fun i => B.getD ((2 * r - 1) * 16 + i) 0 % 2 ^ 32)
  let fold := (List.range (2 * r)).foldl
    (fun (acc : List Nat × List (List Nat)) i =>
      let X := salsa20_8
        ((List.range 16).map (fun j => (acc.1.getD j 0) ^^^ (B.getD (i * 16 + j) 0 % 2 ^ 32)))
      (X, acc.2 ++ [X]))
    (X0, [])
  ((List.range r).map (fun i => fold.2.getD (2 * i) [])).flatten
    ++ ((List.range r).map (fun i => fold.2.getD (2 * i + 1) [])).flatten

/-- The fill phase of `scryptROMix`: `V[i] = state; state = BlockMix(state)`
for `i` in `[0, N)`; returns the table `V` and the state after the phase. -/
def romixFill (B : List Nat) (N r : Nat) : List (List Nat) × List Nat :=
  (List.range N).foldl
    (fun (acc : List (List Nat) × List Nat) _ => (acc.1 ++ [acc.2], scryptBlockMix acc.2 r))
    ([], B)

/-- `scryptROMix` from the source: fill phase, then `N` mix iterations with
`j = B[(2r-1)*16] & (N-1)` and `state = BlockMix(state XOR V[j])`. -/
def scryptROMix (B : List Nat) (N r : Nat) : List Nat :=
  let fill := romixFill B N r
  (List.range N).foldl
    (fun state _ =>
      let j := (state.getD ((2 * r - 1) * 16) 0) &&& (N - 1)
      scryptBlockMix
        ((List.range (32 * r)).map (fun k => (state.getD k 0) ^^^ ((fill.1.getD j []).getD k 0)))
        r)
    fill.2

/-- One mix-phase step as the source performs it, written independently of
the loop: the index is the first 32-bit word of the last 64-byte sub-block
(`Integerify` for a power-of-two `N`), masked with `N - 1`; the state is
XORed with `V[j]` over the whole `32r`-word block and then block-mixed. -/
def romixMixStep (V : List (List Nat)) (N r : Nat) (state : List Nat) : List Nat :=
  let j := (state.getD ((2 * r - 1) * 16) 0) &&& (N - 1)
  scryptBlockMix
    ((List.range (32 * r)).map (fun k => (state.getD k 0) ^^^ ((V.getD j []).getD k 0))) r

/-- Modelled from the spec: the mix-phase step as claim C2 words it, with the
index taken from the LAST 32-bit little-endian word of the state (word index
`32r - 1`) instead of the first word of the last sub-block. -/
def romixMixStepClaimed (V : List (List Nat)) (N r : Nat) (state : List Nat) : List Nat :=
  let j := (state.getD (32 * r - 1) 0) &&& (N - 1)
  scryptBlockMix
    ((List.range (32 * r)).map (fun k => (state.getD k 0) ^^^ ((V.getD j []).getD k 0))) r

/-- Modelled from the spec: `scryptROMix` as claim C2 describes it, using
`romixMixStepClaimed` for the mix phase. -/
def scryptROMixClaimed (B : List Nat) (N r : Nat) : List Nat :=
  let fill := romixFill B N r
  (List.range N).foldl (fun state _ => romixMixStepClaimed fill.1 N r state) fill.2

/-- A JavaScript number as far as `difficultyToBits` observes it: a finite
value (modelled exactly as a rational; IEEE-754 multiplication by `1000000`
preserves sign, zero and finiteness, which is all the verified error
analysis depends on) or one of the non-finite values. -/
inductive JSNumber where
  | finite (q : ℚ)
  | nan
  | posInf
  | negInf
deriving Repr, DecidableEq

/-- The maximum target as a natural number, `BigInt('0x' + bitsToTarget(MAX_TARGET_BITS))`. -/
def maxTargetNat : Nat := (bigIntOfHex (bitsToTarget MAX_TARGET_BITS)).getD 0

/-- `difficultyToBits` from the source. `BigInt(Math.floor(d * 1000000))`
throws a RangeError on non-finite `d`; BigInt division truncates toward zero
(`Int.div`); division by `0n` throws a RangeError; `BigInt('0x' + h)` throws
a SyntaxError when `h` contains the minus sign of a negative target. -/
def difficultyToBits (difficulty : JSNumber) : Except String Nat :=
  let maxTargetHex := bitsToTarget MAX_TARGET_BITS
  let maxTarget : Int := (maxTargetNat : Int)
  match difficulty with
  | .nan => .error "RangeError: NaN cannot be converted to a BigInt"
  | .posInf => .error "RangeError: Infinity cannot be converted to a BigInt"
  | .negInf => .error "RangeError: -Infinity cannot be converted to a BigInt"
  | .finite q =>
    let difficultyBig : Int := ⌊q * 1000000⌋
    if difficultyBig = 0 then .error "RangeError: division by zero"
    else
      let target : Int := Int.tdiv (maxTarget * 1000000) difficultyBig
      let targetHex := padStart 64 '0' (intToHex target)
      match bigIntOfHex targetHex with
      | none => .error "SyntaxError: cannot convert string to a BigInt"
      | some t =>
        let targetHex2 := if (t : Int) > maxTarget then maxTargetHex else targetHex
        .ok (targetToBits targetHex2)

/-- `MiningStats` from the source; times and rates are rationals standing in
for the JS floating-point values (no verified claim depends on their
rounding). -/
structure MiningStats where
  hashesComputed : Nat
  startTime : ℚ
  hashRate : ℚ
  elapsedTime : ℚ
deriving Repr, DecidableEq

/-- One `onProgress(nonce, hash, {...stats})` invocation. -/
structure ProgressCall where
  nonce : Nat
  hash : List Char
  stats : MiningStats
deriving Repr, DecidableEq

/-- The mutable state of one `mineBlock` run: the header object (mutated in
place by the source), the local variables, and instrumentation recording the
`performance.now()` calls made so far (`tcalls`) and the completed awaits so
far (`awaits`, the sampling index for the cancellation flag). -/
structure MineState where
  header : BlockHeader
  nonce : Nat
  hash : List Char
  stats : MiningStats
  lastUpdateTime : ℚ
  tcalls : Nat
  awaits : Nat
  events : List ProgressCall
deriving Repr, DecidableEq

/-- The observable outcome of `mineBlock`: the returned `MiningResult`, the
header object as left by the run, and the sequence of progress reports. -/
structure MineOutcome where
  success : Bool
  nonce : Nat
  hash : List Char
  stats : MiningStats
  finalHeader : BlockHeader
  events : List ProgressCall
deriving Repr, DecidableEq

/-- The `success: false` return of `mineBlock` (bound exhausted or stop flag
observed); no progress report is made on this path. -/
def mkFail (st : MineState) : MineOutcome :=
  ⟨false, st.nonce, st.hash, st.stats, st.header, st.events⟩

/-- The `success: true` return of `mineBlock`, after the final progress
report was appended by the loop body. -/
def mkSuccess (st : MineState) : MineOutcome :=
  ⟨true, st.nonce, st.hash, st.stats, st.header, st.events⟩

/-- The digest rendering of one mining attempt: write nonce `n` into the
header, serialize, double-hash via the external oracle `hashFn` (its output
coerced to bytes by the `Uint8Array` result type), and render the bytes
reversed, exactly as the loop body of `mineBlock` does. -/
def digestOf (hashFn : List Nat → List Nat) (header : BlockHeader) (n : Nat) : List Char :=
  bytesToHex (reverseBytes ((hashFn (serializeBlockHeader { header with nonce := n })).map
    (· % 256)))

/-- One iteration of the inner mining loop body: compute the digest for the
current nonce, update the stats from the time oracle, and either
report-and-succeed or advance the nonce. The `Bool` result tells whether the
target was met. -/
def mineStep (hashFn : List Nat → List Nat) (times : Nat → ℚ) (target : List Char)
    (st : MineState) : MineState × Bool :=
  let header2 := { st.header with nonce := st.nonce }
  let hashHex := digestOf hashFn st.header st.nonce
  let hashes2 := st.stats.hashesComputed + 1
  let now := times st.tcalls
  let elapsed := (now - st.stats.startTime) / 1000
  let rate := if 0 < elapsed then (hashes2 : ℚ) / elapsed else st.stats.hashRate
  let stats2 : MiningStats := ⟨hashes2, st.stats.startTime, rate, elapsed⟩
  let st2 := { st with header := header2, hash := hashHex, stats := stats2,
                       tcalls := st.tcalls + 1, awaits := st.awaits + 1 }
  if hashMeetsTarget hashHex target then
    ({ st2 with events := st2.events ++ [⟨st.nonce, hashHex, stats2⟩] }, true)
  else
    ({ st2 with nonce := st.nonce + 1 }, false)

/-- The inner `for` loop of `mineBlock` (`batchSize` iterations counted down
by `i`), guarded by `nonce < maxAttempts && !shouldStopMining`. -/
def innerLoop (hashFn : List Nat → List Nat) (stop : Nat → Bool) (times : Nat → ℚ)
    (target : List Char) (maxAttempts : Nat) : Nat → MineState → MineState × Bool
  | 0, st => (st, false)
  | i + 1, st =>
    if st.nonce < maxAttempts ∧ stop st.awaits = false then
      let step := mineStep hashFn times target st
      if step.2 then (step.1, true) else innerLoop hashFn stop times target maxAttempts i step.1
    else (st, false)

/-- The periodic progress check after each batch: read `performance.now()`,
and when more than 50 ms elapsed since the last report, call
`onProgress(nonce - 1, hash, {...stats})`, remember the report time, and
yield to the scheduler (`await setTimeout`, hence one more await sample). -/
def periodicStep (times : Nat → ℚ) (st2 : MineState) : MineState :=
  let now := times st2.tcalls
  let st3 := { st2 with tcalls := st2.tcalls + 1 }
  if 50 < now - st3.lastUpdateTime then
    { st3 with events := st3.events ++ [⟨st3.nonce - 1, st3.hash, st3.stats⟩],
               lastUpdateTime := now, awaits := st3.awaits + 1 }
  else st3

/-- The outer `while` loop of `mineBlock`, with explicit fuel: each entered
iteration runs one batch, then performs the periodic progress check.
`mineBlock` supplies fuel `maxAttempts + 1`, which the loop never exhausts
because every entered iteration advances the nonce. -/
def outerLoop (hashFn : List Nat → List Nat) (stop : Nat → Bool) (times : Nat → ℚ)
    (target : List Char) (maxAttempts : Nat) : Nat → MineState → MineOutcome
  | 0, st => mkFail st
  | fuel + 1, st =>
    if st.nonce < maxAttempts ∧ stop st.awaits = false then
      let batch := innerLoop hashFn stop times target maxAttempts 100 st
      if batch.2 then mkSuccess batch.1
      else outerLoop hashFn stop times target maxAttempts fuel (periodicStep times batch.1)
    else mkFail st

/-- `mineBlock` from the source, as a function of the hash oracle, the
cancellation-flag oracle (sampled per completed await), the time oracle
(consumed per `performance.now()` call), the header and `maxAttempts`. -/
def mineBlock (hashFn : List Nat → List Nat) (stop : Nat → Bool) (times : Nat → ℚ)
    (header : BlockHeader) (maxAttempts : Nat) : MineOutcome :=
  let startTime := times 0
  let target := bitsToTarget header.bits
  let lastUpdateTime := times 1
  outerLoop hashFn stop times target maxAttempts (maxAttempts + 1)
    ⟨header, 0, [], ⟨0, startTime, 0, 0⟩, lastUpdateTime, 2, 0, []⟩


/-! ### Generic helper lemmas -/

theorem foldl_range_const {α : Type _} (f : α → α) (a : α) (n : Nat) :
    (List.range n).foldl (fun s _ => f s) a = f^[n] a := by
  induction n with
  | zero => rfl
  | succ n ih =>
    rw [List.range_succ, List.foldl_append, ih, Function.iterate_succ_apply']
    rfl

/-! ### Helper lemmas about the hex rendering -/

theorem natToHexFixed_length (w n : Nat) : (natToHexFixed w n).length = w := by
  simp [natToHexFixed]

theorem natToHexFixed_succ (w n : Nat) :
    natToHexFixed (w + 1) n = hexChar (n / 16 ^ w % 16) :: natToHexFixed w n := by
  unfold natToHexFixed
  rw [List.range_succ_eq_map, List.map_cons, List.map_map]
  congr 1
  refine List.map_congr_left fun i _ => ?_
  have h : w + 1 - 1 - (i + 1) = w - 1 - i := by omega
  simp only [Function.comp_apply, h]

theorem natToHexFixed_succ_low (w n : Nat) :
    natToHexFixed (w + 1) n = natToHexFixed w (n / 16) ++ [hexChar (n % 16)] := by
  unfold natToHexFixed
  rw [List.range_succ, List.map_append]
  congr 1
  · refine List.map_congr_left fun i hi => ?_
    have hi' : i < w := List.mem_range.mp hi
    have h1 : w + 1 - 1 - i = (w - 1 - i) + 1 := by omega
    rw [h1, pow_succ, Nat.div_div_eq_div_mul, Nat.mul_comm (16 ^ (w - 1 - i)) 16,
      ← Nat.div_div_eq_div_mul]
  · simp

theorem natToHexFixed_zero_val (w : Nat) : natToHexFixed w 0 = List.replicate w '0' := by
  induction w with
  | zero => rfl
  | succ w ih => rw [natToHexFixed_succ, ih]; simp [List.replicate_succ]; rfl

theorem natToHexFixed_split (j k n : Nat) (h : n < 16 ^ k) :
    natToHexFixed (j + k) n = List.replicate j '0' ++ natToHexFixed k n := by
  induction j with
  | zero => simp
  | succ j ih =>
    have hjk : j + 1 + k = (j + k) + 1 := by omega
    rw [hjk, natToHexFixed_succ, ih]
    have h0 : n / 16 ^ (j + k) = 0 :=
      Nat.div_eq_of_lt (lt_of_lt_of_le h (Nat.pow_le_pow_right (by norm_num) (by omega)))
    rw [h0]
    simp [List.replicate_succ]
    rfl

theorem hexDigitVal_hexChar {d : Nat} (h : d < 16) : hexDigitVal (hexChar d) = some d := by
  interval_cases d <;> decide

theorem hexChar_eq_zero_iff {d : Nat} (h : d < 16) : hexChar d = '0' ↔ d = 0 := by
  interval_cases d <;> decide

theorem hexChar_facts {d : Nat} (h : d < 16) :
    (hexChar d).isWhitespace = false ∧ hexChar d ≠ '-' ∧ hexChar d ≠ '+' ∧
    hexChar d ≠ 'x' ∧ hexChar d ≠ 'X' ∧ isHexDigitChar (hexChar d) = true := by
  interval_cases d <;> decide

theorem mem_natToHexFixed {w n : Nat} {c : Char} (hc : c ∈ natToHexFixed w n) :
    ∃ d, d < 16 ∧ c = hexChar d := by
  unfold natToHexFixed at hc
  obtain ⟨i, _, hi⟩ := List.mem_map.mp hc
  exact ⟨n / 16 ^ (w - 1 - i) % 16, Nat.mod_lt _ (by norm_num), hi.symm⟩

theorem hexDigitsVal_aux (w n : Nat) :
    ∀ a, (natToHexFixed w n).foldl (fun a c => 16 * a + ((hexDigitVal c).getD 0)) a
      = a * 16 ^ w + n % 16 ^ w := by
  induction w with
  | zero => intro a; simp [natToHexFixed, Nat.mod_one]
  | succ w ih =>
    intro a
    rw [natToHexFixed_succ, List.foldl_cons, ih,
      hexDigitVal_hexChar (Nat.mod_lt _ (by norm_num))]
    have := Nat.mod_pow_succ (x := n) (b := 16) (k := w)
    simp only [Option.getD_some]
    rw [this]
    ring

theorem hexDigitsVal_natToHexFixed (w n : Nat) :
    hexDigitsVal (natToHexFixed w n) = n % 16 ^ w := by
  have := hexDigitsVal_aux w n 0
  simpa [hexDigitsVal] using this

theorem padStart_length (w : Nat) (c : Char) (s : List Char) :
    (padStart w c s).length = max w s.length := by
  simp [padStart]; omega

/-- Re-padding the dropped leading zeros of a string recovers the string. -/
theorem padStart_dropWhile_zero (l : List Char) :
    padStart l.length '0' (l.dropWhile (fun c => c = '0')) = l := by
  unfold padStart
  have hsplit := List.takeWhile_append_dropWhile (p := fun c => decide (c = '0')) (l := l)
  have hlen : l.length - (l.dropWhile (fun c => c = '0')).length
      = (l.takeWhile (fun c => c = '0')).length := by
    have := congrArg List.length hsplit
    simp only [List.length_append] at this
    omega
  rw [hlen]
  have htw : l.takeWhile (fun c => c = '0')
      = List.replicate (l.takeWhile (fun c => c = '0')).length '0' := by
    refine List.eq_replicate_of_mem fun b hb => ?_
    have := List.mem_takeWhile_imp hb
    simpa using this
  calc List.replicate (l.takeWhile (fun c => c = '0')).length '0'
        ++ l.dropWhile (fun c => c = '0')
      = l.takeWhile (fun c => c = '0') ++ l.dropWhile (fun c => c = '0') := by rw [← htw]
    _ = l := hsplit

/-- A fixed-width render whose leading digit is nonzero survives `dropWhile`. -/
theorem dropWhile_natToHexFixed (w c : Nat) (hlo : 16 ^ w ≤ 16 * c) (hhi : c < 16 ^ w) :
    (natToHexFixed w c).dropWhile (fun ch => ch = '0') = natToHexFixed w c := by
  cases w with
  | zero => simp [natToHexFixed]
  | succ w =>
    rw [natToHexFixed_succ]
    have hd1 : 1 ≤ c / 16 ^ w := by
      rw [Nat.le_div_iff_mul_le (Nat.pos_pow_of_pos w (by norm_num))]
      calc 1 * 16 ^ w = 16 ^ w := by ring
        _ ≤ c := by
            rw [pow_succ] at hlo
            omega
    have hd2 : c / 16 ^ w < 16 := by
      rw [Nat.div_lt_iff_lt_mul (Nat.pos_pow_of_pos w (by norm_num))]
      rw [pow_succ] at hhi
      omega
    have hmod : c / 16 ^ w % 16 = c / 16 ^ w := Nat.mod_eq_of_lt hd2
    rw [List.dropWhile_cons]
    have : ¬ (hexChar (c / 16 ^ w % 16) = '0') := by
      rw [hmod, hexChar_eq_zero_iff hd2]
      omega
    simp [this]

theorem parseInt16_hexImage (l : List Char) (hne : l ≠ [])
    (hchars : ∀ c ∈ l, ∃ d, d < 16 ∧ c = hexChar d) :
    parseInt16 l = some ((hexDigitsVal l : Int)) := by
  obtain ⟨c0, t, rfl⟩ := List.exists_cons_of_ne_nil hne
  obtain ⟨d0, hd0, hc0⟩ := hchars c0 (List.mem_cons_self _ _)
  have hf0 := hexChar_facts hd0
  have hs1 : (c0 :: t).dropWhile (fun c => c.isWhitespace) = c0 :: t := by
    rw [List.dropWhile_cons, hc0, hf0.1]
    simp
  have hsign : ((c0 :: t).headD ' ' = '-') = False := by
    rw [List.headD_cons, hc0]
    exact eq_false hf0.2.1
  have hplus : ((c0 :: t).headD ' ' = '+') = False := by
    rw [List.headD_cons, hc0]
    exact eq_false hf0.2.2.1
  have hpre : ((c0 :: t).headD ' ' = '0' ∧
      ((c0 :: t).tail.headD ' ' = 'x' ∨ (c0 :: t).tail.headD ' ' = 'X')) = False := by
    refine eq_false ?_
    rintro ⟨-, hx⟩
    cases t with
    | nil =>
      simp only [List.tail_cons, List.headD_nil] at hx
      rcases hx with h | h <;> exact absurd h (by decide)
    | cons c1 t' =>
      obtain ⟨d1, hd1, hc1⟩ := hchars c1 (by simp)
      have hf1 := hexChar_facts hd1
      simp only [List.tail_cons, List.headD_cons, hc1] at hx
      rcases hx with h | h
      · exact hf1.2.2.2.1 h
      · exact hf1.2.2.2.2.1 h
  have htake : (c0 :: t).takeWhile isHexDigitChar = c0 :: t := by
    refine List.takeWhile_eq_self_iff.mpr fun x hx => ?_
    obtain ⟨d, hd, hcx⟩ := hchars x hx
    rw [hcx]
    exact (hexChar_facts hd).2.2.2.2.2
  unfold parseInt16
  simp only [hs1, hsign, hplus, hpre, false_or, or_self, if_false, htake]
  simp

theorem mem_padStart {w : Nat} {c0 x : Char} {s : List Char} (hx : x ∈ padStart w c0 s) :
    x = c0 ∨ x ∈ s := by
  unfold padStart at hx
  rcases List.mem_append.mp hx with h | h
  · exact Or.inl (List.eq_of_mem_replicate h)
  · exact Or.inr h

/-- Lowercase hex digit predicate used to state claim C8. -/
def isLowerHexChar (c : Char) : Bool :=
  decide (('0' ≤ c ∧ c ≤ '9') ∨ ('a' ≤ c ∧ c ≤ 'f'))

theorem isLowerHexChar_hexChar {d : Nat} (h : d < 16) : isLowerHexChar (hexChar d) = true := by
  interval_cases d <;> decide

theorem mem_natToHex {n : Nat} {c : Char} (hc : c ∈ natToHex n) : isLowerHexChar c = true := by
  unfold natToHex at hc
  by_cases h : ((natToHexFixed 70 n).dropWhile (fun c => c = '0')).isEmpty
  · rw [if_pos h] at hc
    simp only [List.mem_singleton] at hc
    rw [hc]
    decide
  · rw [if_neg h] at hc
    have hmem : c ∈ natToHexFixed 70 n := (List.dropWhile_sublist _).mem hc
    obtain ⟨d, hd, rfl⟩ := mem_natToHexFixed hmem
    exact isLowerHexChar_hexChar hd

/-! ### Claim C3: serialization always yields exactly 80 bytes -/

/-- C3: for every `BlockHeader` — including headers whose hash strings are
shorter or longer than 64 characters or not hex at all — `serializeBlockHeader`
is a total function returning exactly 80 bytes (short inputs are zero-padded
via the `|| 0` read, long inputs are truncated to 32 bytes). -/
theorem c3_serialize_length80 (header : BlockHeader) :
    (serializeBlockHeader header).length = 80 := by
  simp [serializeBlockHeader, le32, hash32]

/-! ### Claim C10: the all-zero target encodes to 0x01000000 -/

/-- C10: for every length `k`, encoding an all-zero target hex string yields
the compact value `0x01000000` (exponent 1, coefficient 0, sign bit clear)
rather than `0`, and decoding `0x01000000` yields the 64-character zero
target again. -/
theorem c10_zero_target_encoding (k : Nat) :
    targetToBits (List.replicate k '0') = 0x01000000 ∧
    bitsToTarget 0x01000000 = List.replicate 64 '0' := by
  constructor
  · have hdrop : (List.replicate k '0').dropWhile (fun c => c = '0') = ([] : List Char) := by
      rw [List.dropWhile_replicate]
      simp
    unfold targetToBits
    rw [hdrop]
    decide
  · decide

/-! ### Claim C4: malformed hex is handled silently, not rejected -/

/-- C4 counterexample: `hexToBytes` does not signal anything on malformed
hex. A pair with no parsable hex prefix (`"zz"`) is silently zero-filled, and
an odd-length input (`"abc"`) silently drops its trailing character. -/
theorem c4_counterexample :
    hexToBytes ['z', 'z'] = [0] ∧ hexToBytes ['a', 'b', 'c'] = [0xab] := by
  decide

/-- C4 amended: malformed hex passed to `hexToBytes` raises no error; the
function is total, always returns `⌊length/2⌋` bytes, and stores `0` for any
2-character pair whose parse is NaN (silent zero-fill). -/
theorem c4_malformed_hex_silent (hex : List Char) (k : Nat) (hk : k < hex.length / 2)
    (hbad : parseInt16 ((hex.drop (2 * k)).take 2) = none) :
    (hexToBytes hex).length = hex.length / 2 ∧ (hexToBytes hex).getD k 1 = 0 := by
  constructor
  · simp [hexToBytes]
  · unfold hexToBytes
    rw [List.getD_eq_getElem?_getD, List.getElem?_map, List.getElem?_range hk]
    simp [hbad, toUint8]

/-- Witness for `c4_malformed_hex_silent` at the concrete input `"zz"`. -/
theorem c4_malformed_hex_silent_witness :
    (0 < (['z', 'z'] : List Char).length / 2 ∧
      parseInt16 (((['z', 'z'] : List Char).drop 0).take 2) = none) ∧
    (hexToBytes ['z', 'z']).length = (['z', 'z'] : List Char).length / 2 ∧
      (hexToBytes ['z', 'z']).getD 0 1 = 0 :=
  ⟨⟨by decide, by decide⟩, c4_malformed_hex_silent ['z', 'z'] 0 (by decide) (by decide)⟩

/-! ### Claim C2: the ROMix mix-phase index -/

/-- C2 counterexample: running the source `scryptROMix` and the claim's
version (index = last 32-bit word of the state) on the same concrete input
(`N = 2`, `r = 1`, state words `0..31`) yields different results, so the mix
phase does not use the last 32-bit little-endian word of the state. -/
theorem c2_counterexample :
    scryptROMixClaimed (List.range 32) 2 1 ≠ scryptROMix (List.range 32) 2 1 := by
  decide

/-- C2 amended: every one of the `N` mix-phase iterations of `scryptROMix`
applies exactly the step `state ↦ BlockMix(state XOR V[j])` where
`j = (first 32-bit word of the last 64-byte sub-block, i.e. word (2r-1)*16) & (N-1)`:
the mix phase is the `N`-fold iteration of `romixMixStep` on the fill-phase
output. -/
theorem c2_mix_phase_step (B : List Nat) (N r : Nat) :
    scryptROMix B N r = (romixMixStep (romixFill B N r).1 N r)^[N] (romixFill B N r).2 := by
  rw [← foldl_range_const]
  rfl

/-! ### Claim C1: the encode/decode round trip -/

/-- C1 counterexample: `0x0a007fff` has exponent `10 > 3` and coefficient
`0x007fff` with the top bit clear, yet the round trip returns `0x097fff00`,
a different compact value (the leading zero byte of the coefficient is
renormalized away). -/
theorem c1_counterexample :
    (0x0a007fff : Nat) >>> 24 = 10 ∧
    (0x0a007fff : Nat) &&& 0x800000 = 0 ∧
    targetToBits (bitsToTarget 0x0a007fff) = 0x097fff00 ∧
    targetToBits (bitsToTarget 0x0a007fff) ≠ 0x0a007fff := by
  refine ⟨by decide, by decide, ?_, ?_⟩
  · decide
  · decide

/-! ### Bit-arithmetic helpers for the compact-target codec -/

theorem and_mask23 (x : Nat) : x &&& 0x7fffff = x % 2 ^ 23 := by
  have h : (0x7fffff : Nat) = 2 ^ 23 - 1 := by norm_num
  rw [h, Nat.and_pow_two_sub_one_eq_mod]

theorem and_mask8 (x : Nat) : x &&& 0xff = x % 2 ^ 8 := by
  have h : (0xff : Nat) = 2 ^ 8 - 1 := by norm_num
  rw [h, Nat.and_pow_two_sub_one_eq_mod]

theorem and_bit23_eq_zero_iff (x : Nat) : x &&& 0x800000 = 0 ↔ x / 2 ^ 23 % 2 = 0 := by
  have h : (0x800000 : Nat) = 2 ^ 23 := by norm_num
  rw [h, Nat.and_two_pow, Nat.testBit_to_div_mod]
  rcases Nat.mod_two_eq_zero_or_one (x / 2 ^ 23) with hm | hm <;>
    simp [hm] <;> omega

theorem and_bit23_of_lt {x : Nat} (hx : x < 2 ^ 23) : x &&& 0x800000 = 0 := by
  rw [and_bit23_eq_zero_iff]
  rw [Nat.div_eq_of_lt hx]

theorem and_bit23_of_ge {x : Nat} (h1 : 2 ^ 23 ≤ x) (h2 : x < 2 ^ 24) :
    x &&& 0x800000 ≠ 0 := by
  rw [Ne, and_bit23_eq_zero_iff]
  have : x / 2 ^ 23 = 1 := by omega
  rw [this]
  omega

theorem lor_shiftLeft_add (a b k : Nat) (h : b < 2 ^ k) :
    (a <<< k) ||| b = a * 2 ^ k + b := by
  apply Nat.eq_of_testBit_eq
  intro i
  rw [Nat.testBit_or, Nat.testBit_shiftLeft]
  have hrhs : a * 2 ^ k + b = 2 ^ k * a + b := by ring
  rw [hrhs, Nat.testBit_mul_pow_two_add a h i]
  by_cases hik : i < k
  · have hki : ¬ (k ≤ i) := by omega
    simp [hik, hki]
  · have hki : k ≤ i := by omega
    have hb : b.testBit i = false :=
      Nat.testBit_lt_two_pow (lt_of_lt_of_le h (Nat.pow_le_pow_right (by norm_num) hki))
    simp [hik, hki, hb]

/-! ### Shape lemmas for the hex rendering -/

theorem parseInt16_natToHexFixed (w n : Nat) (hw : 0 < w) (hn : n < 16 ^ w) :
    parseInt16 (natToHexFixed w n) = some ((n : Int)) := by
  rw [parseInt16_hexImage]
  · rw [hexDigitsVal_natToHexFixed, Nat.mod_eq_of_lt hn]
  · intro hnil
    have hl := natToHexFixed_length w n
    rw [hnil] at hl
    simp at hl
    omega
  · intro ch hch
    exact mem_natToHexFixed hch

theorem dropWhile_natToHexFixed_ne_nil (w c : Nat) (hc0 : 0 < c) (hc : c < 16 ^ w) :
    ((natToHexFixed w c).dropWhile (fun ch => ch = '0')).isEmpty = false := by
  rw [List.isEmpty_eq_false, Ne]
  intro hcon
  have hall := List.dropWhile_eq_nil_iff.mp hcon
  have hrepl : natToHexFixed w c = List.replicate w '0' := by
    have hr := List.eq_replicate_of_mem (l := natToHexFixed w c) (a := '0')
      (fun b hb => by simpa using hall b hb)
    rwa [natToHexFixed_length] at hr
  have hval := hexDigitsVal_natToHexFixed w c
  rw [hrepl] at hval
  have hzero : ∀ m, hexDigitsVal (List.replicate m '0') = 0 := by
    intro m
    induction m with
    | zero => rfl
    | succ m ih =>
      unfold hexDigitsVal at ih ⊢
      rw [List.replicate_succ, List.foldl_cons]
      simpa using ih
  rw [hzero] at hval
  rw [Nat.mod_eq_of_lt hc] at hval
  omega

theorem padStart6_natToHex (c : Nat) (hc0 : 0 < c) (hc : c < 16 ^ 6) :
    padStart 6 '0' (natToHex c) = natToHexFixed 6 c := by
  have hsplit : natToHexFixed 70 c = List.replicate 64 '0' ++ natToHexFixed 6 c :=
    natToHexFixed_split 64 6 c hc
  have hdrop : (natToHexFixed 70 c).dropWhile (fun ch => ch = '0')
      = (natToHexFixed 6 c).dropWhile (fun ch => ch = '0') := by
    rw [hsplit, List.dropWhile_append_of_pos]
    intro a ha
    simp [List.eq_of_mem_replicate ha]
  have hne := dropWhile_natToHexFixed_ne_nil 6 c hc0 hc
  unfold natToHex
  simp only [hdrop, hne, Bool.false_eq_true, if_false]
  have hps := padStart_dropWhile_zero (natToHexFixed 6 c)
  rwa [natToHexFixed_length] at hps

theorem fixed6_mul256 (c : Nat) (hc : c < 16 ^ 4) :
    natToHexFixed 6 (256 * c) = natToHexFixed 4 c ++ List.replicate 2 '0' := by
  have h6 : (6 : Nat) = 5 + 1 := rfl
  rw [h6, natToHexFixed_succ_low]
  have h1 : 256 * c / 16 = 16 * c := by omega
  have h2 : 256 * c % 16 = 0 := by omega
  rw [h1, h2]
  have h5 : (5 : Nat) = 4 + 1 := rfl
  rw [h5, natToHexFixed_succ_low]
  have h3 : 16 * c / 16 = c := by omega
  have h4 : 16 * c % 16 = 0 := by omega
  rw [h3, h4, List.append_assoc]
  congr 1

/-- In the lossless regime (`4 ≤ e ≤ 32`, coefficient in `[2^15, 2^23)`),
`bitsToTarget` places the 6 coefficient digits between two zero runs. -/
theorem bitsToTarget_shape (e c : Nat) (he1 : 4 ≤ e) (he2 : e ≤ 32)
    (hc : 2 ^ 15 ≤ c) (hc2 : c < 2 ^ 23) :
    bitsToTarget (e * 2 ^ 24 + c) =
      List.replicate (58 - (e - 3) * 2) '0' ++ natToHexFixed 6 c
        ++ List.replicate ((e - 3) * 2) '0' := by
  have hc16 : c < 16 ^ 6 := lt_of_lt_of_le hc2 (by norm_num)
  have hshift : (e * 2 ^ 24 + c) >>> 24 = e := by
    rw [Nat.shiftRight_eq_div_pow, Nat.mul_comm e (2 ^ 24), Nat.mul_add_div (by positivity),
      Nat.div_eq_of_lt (by omega)]
    omega
  have hsign0 : (e * 2 ^ 24 + c) &&& 0x800000 = 0 := by
    rw [and_bit23_eq_zero_iff]
    have h24 : e * 2 ^ 24 + c = 2 ^ 23 * (2 * e) + c := by ring
    rw [h24, Nat.mul_add_div (by positivity), Nat.div_eq_of_lt hc2]
    omega
  have hmask : (e * 2 ^ 24 + c) &&& 0x7fffff = c := by
    rw [and_mask23]
    have h24 : e * 2 ^ 24 + c = c + (e * 2) * 2 ^ 23 := by ring
    rw [h24, Nat.add_mul_mod_self_right, Nat.mod_eq_of_lt hc2]
  have hexp8 : e &&& 0xff = e := by
    rw [and_mask8]
    exact Nat.mod_eq_of_lt (by omega)
  unfold bitsToTarget
  rw [hshift, hexp8, hsign0, hmask]
  have hno3 : ¬ (e ≤ 3) := by omega
  have hpos : ¬ ((64 : Int) - (((e - 3) * 2 : Nat) : Int) - 6 < 0) := by
    push_cast
    omega
  simp only [ne_eq, not_true_eq_false, if_false, hno3, hpos,
    padStart6_natToHex c (by omega) hc16]
  have htn : ((64 : Int) - (((e - 3) * 2 : Nat) : Int) - 6).toNat = 58 - (e - 3) * 2 := by
    omega
  rw [htn]
  rw [List.take_of_length_le (by simp [natToHexFixed_length]; omega)]


/-- The stripping/padding pipeline at the head of `targetToBits`, pulled out
as a named function so the evaluation can be reasoned about equationally. -/
def strippedOf (t : List Char) : List Char :=
  let s0 := t.dropWhile (fun c => c = '0')
  let s1 := if s0.isEmpty then ['0'] else s0
  if s1.length % 2 ≠ 0 then '0' :: s1 else s1

theorem targetToBits_eq (t : List Char) :
    targetToBits t =
      if (((parseInt16 (padEnd 6 '0' ((strippedOf t).take 6))).getD 0).toNat) &&& 0x800000 ≠ 0
      then (((strippedOf t).length / 2 + 1) <<< 24)
        ||| ((((parseInt16 (padEnd 6 '0' ((strippedOf t).take 6))).getD 0).toNat) >>> 8)
      else (((strippedOf t).length / 2) <<< 24)
        ||| (((parseInt16 (padEnd 6 '0' ((strippedOf t).take 6))).getD 0).toNat) := rfl

/-- Stripping a target of shape `zeros ++ digits6(c) ++ s zeros`: the result
keeps all six coefficient digits when `c ≥ 16^4` (after the odd-length
re-pad), and exactly four of them when `2^15 ≤ c < 16^4`. -/
theorem strippedOf_fixed (p s c : Nat) (hse : s % 2 = 0)
    (hc : 2 ^ 15 ≤ c) (hc2 : c < 2 ^ 23) :
    strippedOf (List.replicate p '0' ++ natToHexFixed 6 c ++ List.replicate s '0')
      = (if 16 ^ 4 ≤ c then natToHexFixed 6 c else natToHexFixed 4 c)
        ++ List.replicate s '0' := by
  have hc0 : 0 < c := by omega
  have hc16 : c < 16 ^ 6 := lt_of_lt_of_le hc2 (by norm_num)
  have hT : (List.replicate p '0' ++ natToHexFixed 6 c ++ List.replicate s '0').dropWhile
        (fun ch => ch = '0')
      = ((natToHexFixed 6 c).dropWhile (fun ch => ch = '0')) ++ List.replicate s '0' := by
    rw [List.append_assoc,
      List.dropWhile_append_of_pos (by intro a ha; simp [List.eq_of_mem_replicate ha]),
      List.dropWhile_append, dropWhile_natToHexFixed_ne_nil 6 c hc0 hc16]
    simp
  have hd6ne := dropWhile_natToHexFixed_ne_nil 6 c hc0 hc16
  have hempty : (((natToHexFixed 6 c).dropWhile (fun ch => ch = '0'))
      ++ List.replicate s '0').isEmpty = false := by
    rw [List.isEmpty_eq_false] at hd6ne ⊢
    simp [hd6ne]
  unfold strippedOf
  simp only [hT, hempty, Bool.false_eq_true, if_false]
  by_cases hB : 16 ^ 4 ≤ c
  · rw [if_pos hB]
    by_cases hA : 16 ^ 5 ≤ c
    · have hd6 : (natToHexFixed 6 c).dropWhile (fun ch => ch = '0') = natToHexFixed 6 c :=
        dropWhile_natToHexFixed 6 c
          (by calc 16 ^ 6 = 16 * 16 ^ 5 := by ring
            _ ≤ 16 * c := by omega) hc16
      rw [hd6, if_neg (by simp [natToHexFixed_length]; omega)]
    · have hsplit : natToHexFixed 6 c = List.replicate 1 '0' ++ natToHexFixed 5 c := by
        have h6 : (6 : Nat) = 1 + 5 := rfl
        rw [h6]
        exact natToHexFixed_split 1 5 c (by omega)
      have hd6 : (natToHexFixed 6 c).dropWhile (fun ch => ch = '0') = natToHexFixed 5 c := by
        rw [hsplit,
          List.dropWhile_append_of_pos (by intro a ha; simp [List.eq_of_mem_replicate ha])]
        exact dropWhile_natToHexFixed 5 c
          (by calc 16 ^ 5 = 16 * 16 ^ 4 := by ring
            _ ≤ 16 * c := by omega) (by omega)
      rw [hd6, if_pos (by simp [natToHexFixed_length]; omega), hsplit]
      rfl
  · rw [if_neg hB]
    have hsplit : natToHexFixed 6 c = List.replicate 2 '0' ++ natToHexFixed 4 c := by
      have h6 : (6 : Nat) = 2 + 4 := rfl
      rw [h6]
      exact natToHexFixed_split 2 4 c (by omega)
    have hd6 : (natToHexFixed 6 c).dropWhile (fun ch => ch = '0') = natToHexFixed 4 c := by
      rw [hsplit,
        List.dropWhile_append_of_pos (by intro a ha; simp [List.eq_of_mem_replicate ha])]
      exact dropWhile_natToHexFixed 4 c
        (by calc 16 ^ 4 = 2 ^ 16 := by norm_num
          _ ≤ 16 * c := by omega) (by omega)
    rw [hd6, if_neg (by simp [natToHexFixed_length]; omega)]

/-- In the lossless regime, `targetToBits` recovers exponent `3 + s/2` and
coefficient `c` from a target of shape `zeros ++ digits6(c) ++ s zeros`. -/
theorem targetToBits_of_fixed (p s c : Nat) (hs2 : 2 ≤ s) (hse : s % 2 = 0)
    (hc : 2 ^ 15 ≤ c) (hc2 : c < 2 ^ 23) :
    targetToBits (List.replicate p '0' ++ natToHexFixed 6 c ++ List.replicate s '0')
      = ((3 + s / 2) <<< 24) ||| c := by
  have hc0 : 0 < c := by omega
  have hc16 : c < 16 ^ 6 := lt_of_lt_of_le hc2 (by norm_num)
  rw [targetToBits_eq, strippedOf_fixed p s c hse hc hc2]
  by_cases hB : 16 ^ 4 ≤ c
  · rw [if_pos hB]
    have htake : (natToHexFixed 6 c ++ List.replicate s '0').take 6 = natToHexFixed 6 c :=
      List.take_left' (natToHexFixed_length 6 c)
    have hpadEnd : padEnd 6 '0' (natToHexFixed 6 c) = natToHexFixed 6 c := by
      unfold padEnd
      rw [natToHexFixed_length]
      simp
    rw [htake, hpadEnd, parseInt16_natToHexFixed 6 c (by omega) hc16]
    simp only [Option.getD_some, Int.toNat_natCast]
    rw [if_neg (by simpa using and_bit23_of_lt hc2)]
    have hnum : (natToHexFixed 6 c ++ List.replicate s '0').length / 2 = 3 + s / 2 := by
      simp only [List.length_append, natToHexFixed_length, List.length_replicate]
      omega
    rw [hnum]
  · rw [if_neg hB]
    have hc164 : c < 16 ^ 4 := by omega
    have htake : (natToHexFixed 4 c ++ List.replicate s '0').take 6
        = natToHexFixed 6 (256 * c) := by
      have h1 : (natToHexFixed 4 c ++ List.replicate s '0').take 6
          = natToHexFixed 4 c ++ List.replicate 2 '0' := by
        conv_lhs =>
          rw [show (6 : Nat) = (natToHexFixed 4 c).length + 2 by rw [natToHexFixed_length]]
        rw [List.take_append, List.take_replicate]
        congr 2
        omega
      rw [h1, fixed6_mul256 c hc164]
    have h256 : 256 * c < 16 ^ 6 := by
      calc 256 * c < 256 * 16 ^ 4 := by omega
        _ = 16 ^ 6 := by norm_num
    have hpadEnd : padEnd 6 '0' (natToHexFixed 6 (256 * c)) = natToHexFixed 6 (256 * c) := by
      unfold padEnd
      rw [natToHexFixed_length]
      simp
    rw [htake, hpadEnd, parseInt16_natToHexFixed 6 (256 * c) (by omega) h256]
    simp only [Option.getD_some, Int.toNat_natCast]
    rw [if_pos (by
      simpa using and_bit23_of_ge
        (by calc (2 : Nat) ^ 23 = 256 * 2 ^ 15 := by norm_num
          _ ≤ 256 * c := by omega)
        (by calc 256 * c < 256 * 16 ^ 4 := by omega
          _ = 2 ^ 24 := by norm_num))]
    have hnum : (natToHexFixed 4 c ++ List.replicate s '0').length / 2 + 1 = 3 + s / 2 := by
      simp only [List.length_append, natToHexFixed_length, List.length_replicate]
      omega
    rw [hnum]
    have hshr : (256 * c) >>> 8 = c := by
      rw [Nat.shiftRight_eq_div_pow]
      have h28 : (2 : Nat) ^ 8 = 256 := by norm_num
      rw [h28, Nat.mul_div_cancel_left c (by norm_num)]
    rw [hshr]

/-- C1 amended: the round trip `targetToBits (bitsToTarget bits) = bits`
holds on the truly lossless class: exponent in `[4, 32]` (not merely `> 3`:
exponents above 32 overflow-clamp) and coefficient in `[0x8000, 0x7fffff]`
(not merely "top bit clear": a coefficient below `0x8000` is renormalized to
a different compact value with the same target, as the counterexample shows). -/
theorem c1_roundtrip_lossless (bits : Nat) (h32 : bits < 2 ^ 32)
    (hexp_lo : 4 ≤ bits >>> 24) (hexp_hi : bits >>> 24 ≤ 32)
    (hsign : bits &&& 0x800000 = 0)
    (hcoeff : 2 ^ 15 ≤ bits &&& 0x7fffff) :
    targetToBits (bitsToTarget bits) = bits := by
  have hmask : bits &&& 0x7fffff = bits % 2 ^ 23 := and_mask23 bits
  have hc23 : bits % 2 ^ 23 < 2 ^ 23 := Nat.mod_lt _ (by norm_num)
  have hbit23 : bits / 2 ^ 23 % 2 = 0 := (and_bit23_eq_zero_iff bits).mp hsign
  have hmod24 : bits % 2 ^ 24 = bits % 2 ^ 23 := by
    have h := Nat.mod_pow_succ (x := bits) (b := 2) (k := 23)
    rw [hbit23] at h
    simpa using h
  have he_div : bits >>> 24 = bits / 2 ^ 24 := Nat.shiftRight_eq_div_pow bits 24
  have hbits_eq : bits = (bits >>> 24) * 2 ^ 24 + bits % 2 ^ 23 := by
    calc bits = 2 ^ 24 * (bits / 2 ^ 24) + bits % 2 ^ 24 := (Nat.div_add_mod _ _).symm
      _ = (bits >>> 24) * 2 ^ 24 + bits % 2 ^ 23 := by rw [hmod24, he_div]; ring
  rw [hmask] at hcoeff
  conv_lhs => rw [hbits_eq]
  rw [bitsToTarget_shape (bits >>> 24) (bits % 2 ^ 23) hexp_lo hexp_hi hcoeff hc23]
  rw [targetToBits_of_fixed _ _ _ (by omega) (by omega) hcoeff hc23]
  have h3 : 3 + ((bits >>> 24) - 3) * 2 / 2 = bits >>> 24 := by omega
  rw [h3, lor_shiftLeft_add _ _ 24 (by omega)]
  omega

/-- Witness for `c1_roundtrip_lossless` at the genesis bits `0x1d00ffff`. -/
theorem c1_roundtrip_lossless_witness :
    ((0x1d00ffff : Nat) < 2 ^ 32 ∧ 4 ≤ (0x1d00ffff : Nat) >>> 24 ∧
      (0x1d00ffff : Nat) >>> 24 ≤ 32 ∧ (0x1d00ffff : Nat) &&& 0x800000 = 0 ∧
      2 ^ 15 ≤ (0x1d00ffff : Nat) &&& 0x7fffff) ∧
    targetToBits (bitsToTarget 0x1d00ffff) = 0x1d00ffff :=
  ⟨⟨by decide, by decide, by decide, by decide, by decide⟩,
    c1_roundtrip_lossless 0x1d00ffff (by decide) (by decide) (by decide) (by decide) (by decide)⟩

/-! ### Claim C8: decode always yields 64 lowercase hex characters -/

theorem take64_spec (l : List Char) (hlen : 64 ≤ l.length)
    (hchars : ∀ ch ∈ l, isLowerHexChar ch = true) :
    (l.take 64).length = 64 ∧ ∀ ch ∈ l.take 64, isLowerHexChar ch = true := by
  constructor
  · rw [List.length_take]
    omega
  · intro ch hch
    exact hchars ch (List.mem_of_mem_take hch)

/-- C8: for every valid 32-bit CompactBits value with exponent in `[3, 32]`
(overflow clamp included), `bitsToTarget` returns exactly 64 characters, all
of them lowercase hexadecimal digits. -/
theorem bitsToTarget_eq (bits : Nat) :
    bitsToTarget bits =
      (if (bits >>> 24) &&& 0xff ≤ 3 then
        padStart 64 '0' (natToHex ((if bits &&& 0x800000 ≠ 0 then 0 else bits &&& 0x7fffff)
          >>> (8 * (3 - ((bits >>> 24) &&& 0xff)))))
      else
        if ((64 : Int) - (((((bits >>> 24) &&& 0xff) - 3) * 2 : Nat) : Int) - 6) < 0 then
          List.replicate 64 'f'
        else
          List.replicate
              ((64 : Int) - (((((bits >>> 24) &&& 0xff) - 3) * 2 : Nat) : Int) - 6).toNat '0'
            ++ padStart 6 '0' (natToHex (if bits &&& 0x800000 ≠ 0 then 0 else bits &&& 0x7fffff))
            ++ List.replicate ((((bits >>> 24) &&& 0xff) - 3) * 2) '0').take 64 := rfl

theorem c8_decode_64_lowercase_hex (bits : Nat) (h32 : bits < 2 ^ 32)
    (h3 : 3 ≤ (bits >>> 24) &&& 0xff) (h32e : (bits >>> 24) &&& 0xff ≤ 32) :
    (bitsToTarget bits).length = 64 ∧ ∀ ch ∈ bitsToTarget bits, isLowerHexChar ch = true := by
  rw [bitsToTarget_eq]
  apply take64_spec
  · by_cases h1 : (bits >>> 24) &&& 0xff ≤ 3
    · rw [if_pos h1, padStart_length]
      omega
    · rw [if_neg h1]
      by_cases h2 : ((64 : Int) - (((((bits >>> 24) &&& 0xff) - 3) * 2 : Nat) : Int) - 6) < 0
      · rw [if_pos h2]
        simp
      · rw [if_neg h2]
        push_neg at h2
        simp only [List.length_append, List.length_replicate, padStart_length]
        omega
  · intro ch hch
    by_cases h1 : (bits >>> 24) &&& 0xff ≤ 3
    · rw [if_pos h1] at hch
      rcases mem_padStart hch with rfl | hm
      · decide
      · exact mem_natToHex hm
    · rw [if_neg h1] at hch
      by_cases h2 : ((64 : Int) - (((((bits >>> 24) &&& 0xff) - 3) * 2 : Nat) : Int) - 6) < 0
      · rw [if_pos h2] at hch
        rw [List.eq_of_mem_replicate hch]
        decide
      · rw [if_neg h2] at hch
        rcases List.mem_append.mp hch with hm | hm
        · rcases List.mem_append.mp hm with hm2 | hm2
          · rw [List.eq_of_mem_replicate hm2]
            decide
          · rcases mem_padStart hm2 with rfl | hm3
            · decide
            · exact mem_natToHex hm3
        · rw [List.eq_of_mem_replicate hm]
          decide

/-- Witness for `c8_decode_64_lowercase_hex` at the genesis bits. -/
theorem c8_decode_64_lowercase_hex_witness :
    ((0x1d00ffff : Nat) < 2 ^ 32 ∧ 3 ≤ ((0x1d00ffff : Nat) >>> 24) &&& 0xff ∧
      ((0x1d00ffff : Nat) >>> 24) &&& 0xff ≤ 32) ∧
    ((bitsToTarget 0x1d00ffff).length = 64 ∧
      ∀ ch ∈ bitsToTarget 0x1d00ffff, isLowerHexChar ch = true) :=
  ⟨⟨by decide, by decide, by decide⟩,
    c8_decode_64_lowercase_hex 0x1d00ffff (by decide) (by decide) (by decide)⟩

/-! ### Claim C6: non-positive / non-finite difficulty -/

theorem difficultyToBits_finite (q : ℚ) :
    difficultyToBits (.finite q) =
      (if ⌊q * 1000000⌋ = 0 then Except.error "RangeError: division by zero"
       else
        match bigIntOfHex (padStart 64 '0'
            (intToHex (Int.tdiv ((maxTargetNat : ℤ) * 1000000) ⌊q * 1000000⌋))) with
        | none => Except.error "SyntaxError: cannot convert string to a BigInt"
        | some t =>
          Except.ok (targetToBits
            (if ((t : ℕ) : ℤ) > ((maxTargetNat : ℕ) : ℤ) then bitsToTarget MAX_TARGET_BITS
             else padStart 64 '0'
               (intToHex (Int.tdiv ((maxTargetNat : ℤ) * 1000000) ⌊q * 1000000⌋))))) := rfl

/-- C6 counterexample: a sufficiently negative finite difficulty does NOT
signal anything — `Math.floor(d * 10^6)` is a huge negative BigInt, the
truncating division yields the zero target, and `difficultyToBits` happily
returns the compact value `0x01000000`. -/
theorem c6_counterexample :
    difficultyToBits (.finite (-((maxTargetNat : ℚ) + 1))) = .ok 0x01000000 := by
  have hfloor : ⌊(-((maxTargetNat : ℚ) + 1)) * 1000000⌋
      = -((((maxTargetNat + 1) * 1000000 : ℕ) : ℤ)) := by
    have hcast : (-((maxTargetNat : ℚ) + 1)) * 1000000
        = (((-((((maxTargetNat + 1) * 1000000 : ℕ) : ℤ))) : ℤ) : ℚ) := by
      push_cast
      ring
    rw [hcast, Int.floor_intCast]
  have hne : ¬ (-((((maxTargetNat + 1) * 1000000 : ℕ) : ℤ)) = 0) := by
    simp only [neg_eq_zero, Nat.cast_eq_zero]
    positivity
  have htdiv : Int.tdiv ((maxTargetNat : ℤ) * 1000000)
      (-((((maxTargetNat + 1) * 1000000 : ℕ) : ℤ))) = 0 := by
    rw [Int.tdiv_neg, Int.tdiv_eq_zero_of_lt (by positivity) (by push_cast; omega)]
    simp
  have hhex : padStart 64 '0' (intToHex 0) = List.replicate 64 '0' := by decide
  have hbig : bigIntOfHex (List.replicate 64 '0') = some 0 := by decide
  rw [difficultyToBits_finite, hfloor, if_neg hne, htdiv, hhex, hbig]
  have hgt : ¬ ((0 : ℕ) : ℤ) > ((maxTargetNat : ℕ) : ℤ) := by
    simp
  show Except.ok (targetToBits (if ((0 : ℕ) : ℤ) > ((maxTargetNat : ℕ) : ℤ)
      then bitsToTarget MAX_TARGET_BITS else List.replicate 64 '0')) = Except.ok 16777216
  rw [if_neg hgt]
  have hval : targetToBits (List.replicate 64 '0') = 0x01000000 := by decide
  rw [hval]

/-- C6 amended: `difficultyToBits` signals an error for every non-finite
difficulty, and for every non-positive difficulty that is at least
`-maxTarget` (for difficulties below `-maxTarget` the truncating division
collapses to the zero target and a value is returned instead, as the
counterexample shows; every realistic non-positive input such as 0, -1 or
-0.5 lies in the error class). -/
theorem c6_invalid_difficulty_error (d : JSNumber)
    (h : d = .nan ∨ d = .posInf ∨ d = .negInf ∨
      ∃ q : ℚ, d = .finite q ∧ q ≤ 0 ∧ -((maxTargetNat : ℚ)) ≤ q) :
    ∃ msg, difficultyToBits d = .error msg := by
  rcases h with rfl | rfl | rfl | ⟨q, rfl, hq0, hqm⟩
  · exact ⟨_, rfl⟩
  · exact ⟨_, rfl⟩
  · exact ⟨_, rfl⟩
  · have hdb0 : ⌊q * 1000000⌋ ≤ 0 := by
      apply Int.floor_nonpos
      have h1 : (0 : ℚ) ≤ 1000000 := by norm_num
      nlinarith
    by_cases hz : ⌊q * 1000000⌋ = 0
    · refine ⟨"RangeError: division by zero", ?_⟩
      rw [difficultyToBits_finite, if_pos hz]
    · have hdbneg : ⌊q * 1000000⌋ < 0 := by omega
      have hdbge : -((maxTargetNat : ℤ) * 1000000) ≤ ⌊q * 1000000⌋ := by
        rw [Int.le_floor]
        push_cast
        nlinarith
      have htneg : Int.tdiv ((maxTargetNat : ℤ) * 1000000) ⌊q * 1000000⌋ < 0 := by
        have hk : ⌊q * 1000000⌋ = -(-⌊q * 1000000⌋) := by ring
        rw [hk, Int.tdiv_neg, Int.tdiv_eq_ediv (by positivity) (by omega), neg_lt_zero,
          Int.lt_iff_add_one_le, zero_add, Int.le_ediv_iff_mul_le (by omega), one_mul]
        omega
      refine ⟨"SyntaxError: cannot convert string to a BigInt", ?_⟩
      rw [difficultyToBits_finite, if_neg hz]
      have hsign : intToHex (Int.tdiv ((maxTargetNat : ℤ) * 1000000) ⌊q * 1000000⌋)
          = '-' :: natToHex (Int.tdiv ((maxTargetNat : ℤ) * 1000000) ⌊q * 1000000⌋).natAbs := by
        unfold intToHex
        rw [if_pos htneg]
      rw [hsign]
      have hmem : '-' ∈ padStart 64 '0'
          ('-' :: natToHex (Int.tdiv ((maxTargetNat : ℤ) * 1000000) ⌊q * 1000000⌋).natAbs) := by
        unfold padStart
        exact List.mem_append.mpr (Or.inr (List.mem_cons_self _ _))
      have hbad : bigIntOfHex (padStart 64 '0'
          ('-' :: natToHex (Int.tdiv ((maxTargetNat : ℤ) * 1000000) ⌊q * 1000000⌋).natAbs))
          = none := by
        unfold bigIntOfHex
        have hnonempty : (padStart 64 '0'
            ('-' :: natToHex (Int.tdiv ((maxTargetNat : ℤ) * 1000000)
              ⌊q * 1000000⌋).natAbs)).isEmpty = false := by
          rw [List.isEmpty_eq_false]
          exact List.ne_nil_of_mem hmem
        rw [hnonempty]
        have hall : (padStart 64 '0'
            ('-' :: natToHex (Int.tdiv ((maxTargetNat : ℤ) * 1000000)
              ⌊q * 1000000⌋).natAbs)).all isHexDigitChar = false := by
          rw [List.all_eq_false]
          exact ⟨'-', hmem, by decide⟩
        rw [hall]
        rfl
      rw [hbad]

/-- Witness for `c6_invalid_difficulty_error` at difficulty 0. -/
theorem c6_invalid_difficulty_error_witness :
    ((JSNumber.finite 0 = JSNumber.nan ∨ JSNumber.finite 0 = JSNumber.posInf ∨
      JSNumber.finite 0 = JSNumber.negInf ∨
      ∃ q : ℚ, JSNumber.finite 0 = JSNumber.finite q ∧ q ≤ 0 ∧ -((maxTargetNat : ℚ)) ≤ q)) ∧
    ∃ msg, difficultyToBits (JSNumber.finite 0) = .error msg :=
  ⟨Or.inr (Or.inr (Or.inr ⟨0, rfl, le_refl 0, by simp⟩)),
    c6_invalid_difficulty_error (JSNumber.finite 0)
      (Or.inr (Or.inr (Or.inr ⟨0, rfl, le_refl 0, by simp⟩)))⟩

/-! ### Loop lemmas for the mining model -/

/-- All header fields except possibly the nonce agree. -/
def sameHeaderButNonce (h0 h : BlockHeader) : Prop :=
  h.version = h0.version ∧ h.previousBlockHash = h0.previousBlockHash ∧
  h.merkleRoot = h0.merkleRoot ∧ h.timestamp = h0.timestamp ∧ h.bits = h0.bits

theorem sameHeaderButNonce_refl (h0 : BlockHeader) : sameHeaderButNonce h0 h0 :=
  ⟨rfl, rfl, rfl, rfl, rfl⟩

theorem sameHeaderButNonce_trans {a b c : BlockHeader}
    (h1 : sameHeaderButNonce a b) (h2 : sameHeaderButNonce b c) : sameHeaderButNonce a c := by
  obtain ⟨x1, x2, x3, x4, x5⟩ := h1
  obtain ⟨y1, y2, y3, y4, y5⟩ := h2
  exact ⟨y1.trans x1, y2.trans x2, y3.trans x3, y4.trans x4, y5.trans x5⟩

theorem sameHeaderButNonce_update {h0 h : BlockHeader} (hs : sameHeaderButNonce h0 h) (n : Nat) :
    sameHeaderButNonce h0 { h with nonce := n } := hs

theorem update_nonce_eq {h0 h : BlockHeader} (hs : sameHeaderButNonce h0 h) (n : Nat) :
    { h with nonce := n } = { h0 with nonce := n } := by
  obtain ⟨h1, h2, h3, h4, h5⟩ := hs
  cases h0
  cases h
  simp_all

theorem digestOf_congr {hashFn : List Nat → List Nat} {h0 h : BlockHeader}
    (hs : sameHeaderButNonce h0 h) (n : Nat) :
    digestOf hashFn h n = digestOf hashFn h0 n := by
  unfold digestOf
  rw [update_nonce_eq hs]

theorem mineStep_proj (hashFn : List Nat → List Nat) (times : Nat → ℚ) (target : List Char)
    (st : MineState) :
    (mineStep hashFn times target st).1.header = { st.header with nonce := st.nonce } ∧
    (mineStep hashFn times target st).1.stats.hashesComputed = st.stats.hashesComputed + 1 ∧
    (mineStep hashFn times target st).1.hash = digestOf hashFn st.header st.nonce ∧
    (mineStep hashFn times target st).1.awaits = st.awaits + 1 ∧
    (mineStep hashFn times target st).1.tcalls = st.tcalls + 1 ∧
    (mineStep hashFn times target st).1.lastUpdateTime = st.lastUpdateTime ∧
    (mineStep hashFn times target st).2
      = hashMeetsTarget (digestOf hashFn st.header st.nonce) target ∧
    (if (mineStep hashFn times target st).2 then
      (mineStep hashFn times target st).1.nonce = st.nonce ∧
        (mineStep hashFn times target st).1.events
          = st.events ++ [⟨st.nonce, (mineStep hashFn times target st).1.hash,
              (mineStep hashFn times target st).1.stats⟩]
    else (mineStep hashFn times target st).1.nonce = st.nonce + 1 ∧
      (mineStep hashFn times target st).1.events = st.events) := by
  by_cases h : hashMeetsTarget (digestOf hashFn st.header st.nonce) target <;>
    simp [mineStep, h]

theorem innerLoop_spec (hashFn : List Nat → List Nat) (stop : Nat → Bool) (times : Nat → ℚ)
    (target : List Char) (maxAttempts : Nat) :
    ∀ (i : Nat) (st : MineState),
      st.nonce ≤ (innerLoop hashFn stop times target maxAttempts i st).1.nonce ∧
      sameHeaderButNonce st.header
        (innerLoop hashFn stop times target maxAttempts i st).1.header ∧
      (if (innerLoop hashFn stop times target maxAttempts i st).2 then
        (innerLoop hashFn stop times target maxAttempts i st).1.events
          = st.events ++ [⟨(innerLoop hashFn stop times target maxAttempts i st).1.nonce,
              (innerLoop hashFn stop times target maxAttempts i st).1.hash,
              (innerLoop hashFn stop times target maxAttempts i st).1.stats⟩]
      else (innerLoop hashFn stop times target maxAttempts i st).1.events = st.events) := by
  intro i
  induction i with
  | zero =>
    intro st
    refine ⟨le_refl _, sameHeaderButNonce_refl _, ?_⟩
    simp [innerLoop]
  | succ i ih =>
    intro st
    by_cases hg : st.nonce < maxAttempts ∧ stop st.awaits = false
    · have hstep := mineStep_proj hashFn times target st
      obtain ⟨hh, hhc, hhash, haw, htc, hlu, hsnd, hcond⟩ := hstep
      by_cases hf : (mineStep hashFn times target st).2 = true
      · have hloop : innerLoop hashFn stop times target maxAttempts (i + 1) st
            = ((mineStep hashFn times target st).1, true) := by
          simp only [innerLoop, if_pos hg, hf, if_true]
        simp only [hf, eq_self_iff_true, if_true] at hcond
        obtain ⟨hn, hev⟩ := hcond
        simp only [hloop, if_true]
        refine ⟨by omega, ?_, ?_⟩
        · rw [hh]
          exact sameHeaderButNonce_update (sameHeaderButNonce_refl _) _
        · rw [hev, hn]
      · have hf' : (mineStep hashFn times target st).2 = false := by
          revert hf
          cases (mineStep hashFn times target st).2 <;> simp
        have hloop : innerLoop hashFn stop times target maxAttempts (i + 1) st
            = innerLoop hashFn stop times target maxAttempts i
                (mineStep hashFn times target st).1 := by
          simp only [innerLoop, if_pos hg, hf', Bool.false_eq_true, if_false]
        simp only [hf', Bool.false_eq_true, if_false] at hcond
        obtain ⟨hn, hev⟩ := hcond
        obtain ⟨ih1, ih2, ih3⟩ := ih (mineStep hashFn times target st).1
        rw [hloop]
        refine ⟨by omega, ?_, ?_⟩
        · refine sameHeaderButNonce_trans ?_ ih2
          rw [hh]
          exact sameHeaderButNonce_update (sameHeaderButNonce_refl _) _
        · rw [hev] at ih3
          exact ih3
    · have hloop : innerLoop hashFn stop times target maxAttempts (i + 1) st = (st, false) := by
        simp only [innerLoop, if_neg hg]
      simp only [hloop, Bool.false_eq_true, if_false]
      exact ⟨le_refl _, sameHeaderButNonce_refl _, by trivial⟩

theorem innerLoop_advance (hashFn : List Nat → List Nat) (stop : Nat → Bool) (times : Nat → ℚ)
    (target : List Char) (maxAttempts : Nat) (i : Nat) (st : MineState)
    (h1 : st.nonce < maxAttempts) (h2 : stop st.awaits = false) :
    (innerLoop hashFn stop times target maxAttempts (i + 1) st).2 = true ∨
      st.nonce + 1 ≤ (innerLoop hashFn stop times target maxAttempts (i + 1) st).1.nonce := by
  have hg : st.nonce < maxAttempts ∧ stop st.awaits = false := ⟨h1, h2⟩
  obtain ⟨hh, hhc, hhash, haw, htc, hlu, hsnd, hcond⟩ := mineStep_proj hashFn times target st
  by_cases hf : (mineStep hashFn times target st).2 = true
  · left
    simp only [innerLoop, if_pos hg, hf, if_true]
  · have hf' : (mineStep hashFn times target st).2 = false := by
      revert hf
      cases (mineStep hashFn times target st).2 <;> simp
    right
    have hloop : innerLoop hashFn stop times target maxAttempts (i + 1) st
        = innerLoop hashFn stop times target maxAttempts i
            (mineStep hashFn times target st).1 := by
      simp only [innerLoop, if_pos hg, hf', Bool.false_eq_true, if_false]
    simp only [hf', Bool.false_eq_true, if_false] at hcond
    obtain ⟨hn, -⟩ := hcond
    obtain ⟨ih1, -, -⟩ :=
      innerLoop_spec hashFn stop times target maxAttempts i (mineStep hashFn times target st).1
    rw [hloop]
    omega

theorem periodicStep_proj (times : Nat → ℚ) (st2 : MineState) :
    (periodicStep times st2).nonce = st2.nonce ∧
    (periodicStep times st2).header = st2.header ∧
    (periodicStep times st2).stats = st2.stats ∧
    (periodicStep times st2).hash = st2.hash ∧
    ((periodicStep times st2).events = st2.events ∨
      (periodicStep times st2).events
        = st2.events ++ [⟨st2.nonce - 1, st2.hash, st2.stats⟩]) := by
  unfold periodicStep
  by_cases hp : 50 < times st2.tcalls - st2.lastUpdateTime <;> simp [hp]

theorem outerLoop_zero (hashFn : List Nat → List Nat) (stop : Nat → Bool) (times : Nat → ℚ)
    (target : List Char) (maxAttempts : Nat) (st : MineState) :
    outerLoop hashFn stop times target maxAttempts 0 st = mkFail st := rfl

theorem outerLoop_guard_false (hashFn : List Nat → List Nat) (stop : Nat → Bool)
    (times : Nat → ℚ) (target : List Char) (maxAttempts fuel : Nat) (st : MineState)
    (hg : ¬ (st.nonce < maxAttempts ∧ stop st.awaits = false)) :
    outerLoop hashFn stop times target maxAttempts (fuel + 1) st = mkFail st := by
  simp only [outerLoop, if_neg hg]

theorem outerLoop_succ_found (hashFn : List Nat → List Nat) (stop : Nat → Bool)
    (times : Nat → ℚ) (target : List Char) (maxAttempts fuel : Nat) (st : MineState)
    (hg : st.nonce < maxAttempts ∧ stop st.awaits = false)
    (hf : (innerLoop hashFn stop times target maxAttempts 100 st).2 = true) :
    outerLoop hashFn stop times target maxAttempts (fuel + 1) st
      = mkSuccess (innerLoop hashFn stop times target maxAttempts 100 st).1 := by
  simp only [outerLoop, if_pos hg, hf, if_true]

theorem outerLoop_succ_cont (hashFn : List Nat → List Nat) (stop : Nat → Bool)
    (times : Nat → ℚ) (target : List Char) (maxAttempts fuel : Nat) (st : MineState)
    (hg : st.nonce < maxAttempts ∧ stop st.awaits = false)
    (hf : (innerLoop hashFn stop times target maxAttempts 100 st).2 = false) :
    outerLoop hashFn stop times target maxAttempts (fuel + 1) st
      = outerLoop hashFn stop times target maxAttempts fuel
          (periodicStep times (innerLoop hashFn stop times target maxAttempts 100 st).1) := by
  simp only [outerLoop, if_pos hg, hf, Bool.false_eq_true, if_false]

theorem outerLoop_header (hashFn : List Nat → List Nat) (stop : Nat → Bool) (times : Nat → ℚ)
    (target : List Char) (maxAttempts : Nat) :
    ∀ (fuel : Nat) (st : MineState),
      sameHeaderButNonce st.header
        (outerLoop hashFn stop times target maxAttempts fuel st).finalHeader := by
  intro fuel
  induction fuel with
  | zero =>
    intro st
    exact sameHeaderButNonce_refl _
  | succ fuel ih =>
    intro st
    by_cases hg : st.nonce < maxAttempts ∧ stop st.awaits = false
    · by_cases hf : (innerLoop hashFn stop times target maxAttempts 100 st).2 = true
      · rw [outerLoop_succ_found hashFn stop times target maxAttempts fuel st hg hf]
        exact (innerLoop_spec hashFn stop times target maxAttempts 100 st).2.1
      · have hf' : (innerLoop hashFn stop times target maxAttempts 100 st).2 = false := by
          revert hf
          cases (innerLoop hashFn stop times target maxAttempts 100 st).2 <;> simp
        rw [outerLoop_succ_cont hashFn stop times target maxAttempts fuel st hg hf']
        refine sameHeaderButNonce_trans ?_
          (ih (periodicStep times (innerLoop hashFn stop times target maxAttempts 100 st).1))
        rw [(periodicStep_proj times (innerLoop hashFn stop times target maxAttempts 100 st).1).2.1]
        exact (innerLoop_spec hashFn stop times target maxAttempts 100 st).2.1
    · rw [outerLoop_guard_false hashFn stop times target maxAttempts fuel st hg]
      exact sameHeaderButNonce_refl _

/-- C9: during every run of the search — for every hash oracle, cancellation
oracle, time oracle, header and bound — the header object as left by
`mineBlock` agrees with the input header on every field except the nonce:
version, previousBlockHash, merkleRoot, timestamp and bits are unchanged. -/
theorem c9_header_fields_unchanged (hashFn : List Nat → List Nat) (stop : Nat → Bool)
    (times : Nat → ℚ) (header : BlockHeader) (maxAttempts : Nat) :
    (mineBlock hashFn stop times header maxAttempts).finalHeader.version = header.version ∧
    (mineBlock hashFn stop times header maxAttempts).finalHeader.previousBlockHash
      = header.previousBlockHash ∧
    (mineBlock hashFn stop times header maxAttempts).finalHeader.merkleRoot
      = header.merkleRoot ∧
    (mineBlock hashFn stop times header maxAttempts).finalHeader.timestamp
      = header.timestamp ∧
    (mineBlock hashFn stop times header maxAttempts).finalHeader.bits = header.bits := by
  have h := outerLoop_header hashFn stop times (bitsToTarget header.bits) maxAttempts
    (maxAttempts + 1)
    ⟨header, 0, [], ⟨0, times 0, 0, 0⟩, times 1, 2, 0, []⟩
  exact h

theorem chain_append_lt {l : List ProgressCall} {a : ProgressCall}
    (hl : List.Chain' (· < ·) (l.map ProgressCall.nonce))
    (hall : ∀ x ∈ l, x.nonce < a.nonce) :
    List.Chain' (· < ·) ((l ++ [a]).map ProgressCall.nonce) := by
  rw [List.map_append, List.chain'_append]
  refine ⟨hl, List.chain'_singleton _, ?_⟩
  intro x hx y hy
  simp only [List.map_cons, List.map_nil, List.head?_cons, Option.mem_def,
    Option.some.injEq] at hy
  have hx' : x ∈ l.map ProgressCall.nonce :=
    List.mem_of_getLast?_eq_some (Option.mem_def.mp hx)
  obtain ⟨p, hp, rfl⟩ := List.mem_map.mp hx'
  rw [← hy]
  exact hall p hp

theorem outerLoop_chain (hashFn : List Nat → List Nat) (stop : Nat → Bool) (times : Nat → ℚ)
    (target : List Char) (maxAttempts : Nat) :
    ∀ (fuel : Nat) (st : MineState),
      List.Chain' (· < ·) (st.events.map ProgressCall.nonce) →
      (∀ x ∈ st.events, x.nonce < st.nonce) →
      List.Chain' (· < ·)
          ((outerLoop hashFn stop times target maxAttempts fuel st).events.map
            ProgressCall.nonce) ∧
        ((outerLoop hashFn stop times target maxAttempts fuel st).success = true →
          ((outerLoop hashFn stop times target maxAttempts fuel st).events.map
              ProgressCall.nonce).getLast?
            = some (outerLoop hashFn stop times target maxAttempts fuel st).nonce) := by
  intro fuel
  induction fuel with
  | zero =>
    intro st hchain hbound
    rw [outerLoop_zero]
    exact ⟨hchain, by intro h; exact absurd h (by simp [mkFail])⟩
  | succ fuel ih =>
    intro st hchain hbound
    by_cases hg : st.nonce < maxAttempts ∧ stop st.awaits = false
    · obtain ⟨hmono, -, hevif⟩ := innerLoop_spec hashFn stop times target maxAttempts 100 st
      by_cases hf : (innerLoop hashFn stop times target maxAttempts 100 st).2 = true
      · rw [outerLoop_succ_found hashFn stop times target maxAttempts fuel st hg hf]
        rw [if_pos hf] at hevif
        have hall : ∀ x ∈ st.events,
            x.nonce < (innerLoop hashFn stop times target maxAttempts 100 st).1.nonce := by
          intro x hx
          have := hbound x hx
          omega
        constructor
        · show List.Chain' (· < ·)
            ((innerLoop hashFn stop times target maxAttempts 100 st).1.events.map
              ProgressCall.nonce)
          rw [hevif]
          exact chain_append_lt hchain hall
        · intro _
          show ((innerLoop hashFn stop times target maxAttempts 100 st).1.events.map
              ProgressCall.nonce).getLast?
            = some (innerLoop hashFn stop times target maxAttempts 100 st).1.nonce
          rw [hevif, List.map_append]
          exact List.getLast?_concat _
      · have hf' : (innerLoop hashFn stop times target maxAttempts 100 st).2 = false := by
          revert hf
          cases (innerLoop hashFn stop times target maxAttempts 100 st).2 <;> simp
        rw [outerLoop_succ_cont hashFn stop times target maxAttempts fuel st hg hf']
        rw [hf'] at hevif
        simp only [Bool.false_eq_true, if_false] at hevif
        have hadv : st.nonce + 1
            ≤ (innerLoop hashFn stop times target maxAttempts 100 st).1.nonce := by
          have h100 : (99 : Nat) + 1 = 100 := rfl
          have hor := innerLoop_advance hashFn stop times target maxAttempts 99 st hg.1 hg.2
          rw [h100] at hor
          rcases hor with h | h
          · rw [hf'] at h
            exact absurd h (by simp)
          · exact h
        obtain ⟨hpn, -, hpst, hph, hpev⟩ :=
          periodicStep_proj times (innerLoop hashFn stop times target maxAttempts 100 st).1
        rcases hpev with hpe | hpe
        · refine ih _ ?_ ?_
          · rw [hpe, hevif]
            exact hchain
          · intro x hx
            rw [hpe, hevif] at hx
            have := hbound x hx
            omega
        · refine ih _ ?_ ?_
          · rw [hpe, hevif]
            refine chain_append_lt hchain ?_
            intro x hx
            have := hbound x hx
            simp only []
            omega
          · intro x hx
            rw [hpe, hevif] at hx
            rcases List.mem_append.mp hx with hm | hm
            · have := hbound x hm
              omega
            · simp only [List.mem_singleton] at hm
              rw [hm, hpn]
              simp only []
              omega
    · rw [outerLoop_guard_false hashFn stop times target maxAttempts fuel st hg]
      exact ⟨hchain, by intro h; exact absurd h (by simp [mkFail])⟩

/-- C5 counterexample: with `maxAttempts = 0` the search terminates
immediately in the Exhausted state and delivers NO progress snapshot at all
— the `success: false` return paths of `mineBlock` never call `onProgress`,
so no final snapshot is guaranteed on Exhausted/Cancelled. -/
theorem c5_counterexample :
    (mineBlock (fun _ => List.replicate 32 0) (fun _ => false) (fun _ => 0)
      ⟨0x20000000, List.replicate 64 'a', List.replicate 64 'b', 1700000000, 0x207fffff, 0⟩
      0).success = false ∧
    (mineBlock (fun _ => List.replicate 32 0) (fun _ => false) (fun _ => 0)
      ⟨0x20000000, List.replicate 64 'a', List.replicate 64 'b', 1700000000, 0x207fffff, 0⟩
      0).events = [] := by
  constructor <;> rfl

/-- C5 amended: progress snapshots are delivered in strictly increasing
nonce order, and on a Found termination the final snapshot (reporting the
winning nonce) is delivered after all earlier ones; on Exhausted/Cancelled
no final snapshot is delivered (the result is returned directly, as the
counterexample shows). Stated for every hash, cancellation and time oracle. -/
theorem c5_progress_order (hashFn : List Nat → List Nat) (stop : Nat → Bool)
    (times : Nat → ℚ) (header : BlockHeader) (maxAttempts : Nat) :
    List.Chain' (· < ·)
        ((mineBlock hashFn stop times header maxAttempts).events.map ProgressCall.nonce) ∧
      ((mineBlock hashFn stop times header maxAttempts).success = true →
        ((mineBlock hashFn stop times header maxAttempts).events.map
            ProgressCall.nonce).getLast?
          = some (mineBlock hashFn stop times header maxAttempts).nonce) := by
  have h := outerLoop_chain hashFn stop times (bitsToTarget header.bits) maxAttempts
    (maxAttempts + 1)
    ⟨header, 0, [], ⟨0, times 0, 0, 0⟩, times 1, 2, 0, []⟩
    (by simp) (by simp)
  exact h

theorem innerLoop_zero (hashFn : List Nat → List Nat) (stop : Nat → Bool) (times : Nat → ℚ)
    (target : List Char) (maxAttempts : Nat) (st : MineState) :
    innerLoop hashFn stop times target maxAttempts 0 st = (st, false) := rfl

theorem innerLoop_succ_true (hashFn : List Nat → List Nat) (stop : Nat → Bool)
    (times : Nat → ℚ) (target : List Char) (maxAttempts i : Nat) (st : MineState)
    (hg : st.nonce < maxAttempts ∧ stop st.awaits = false)
    (hf : (mineStep hashFn times target st).2 = true) :
    innerLoop hashFn stop times target maxAttempts (i + 1) st
      = ((mineStep hashFn times target st).1, true) := by
  simp only [innerLoop, if_pos hg, hf, if_true]

theorem innerLoop_succ_false (hashFn : List Nat → List Nat) (stop : Nat → Bool)
    (times : Nat → ℚ) (target : List Char) (maxAttempts i : Nat) (st : MineState)
    (hg : st.nonce < maxAttempts ∧ stop st.awaits = false)
    (hf : (mineStep hashFn times target st).2 = false) :
    innerLoop hashFn stop times target maxAttempts (i + 1) st
      = innerLoop hashFn stop times target maxAttempts i (mineStep hashFn times target st).1 := by
  simp only [innerLoop, if_pos hg, hf, Bool.false_eq_true, if_false]

theorem innerLoop_run (hashFn : List Nat → List Nat) (times : Nat → ℚ)
    (target : List Char) (maxAttempts n : Nat) (header : BlockHeader)
    (hmeet : hashMeetsTarget (digestOf hashFn header n) target = true)
    (hmin : ∀ m, m < n → hashMeetsTarget (digestOf hashFn header m) target = false)
    (hn : n < maxAttempts) :
    ∀ (i : Nat) (st : MineState),
      sameHeaderButNonce header st.header →
      st.nonce ≤ n →
      (if st.nonce + i ≤ n then
        (innerLoop hashFn (fun _ => false) times target maxAttempts i st).2 = false ∧
        (innerLoop hashFn (fun _ => false) times target maxAttempts i st).1.nonce
          = st.nonce + i ∧
        (innerLoop hashFn (fun _ => false) times target maxAttempts i st).1.stats.hashesComputed
          = st.stats.hashesComputed + i ∧
        sameHeaderButNonce header
          (innerLoop hashFn (fun _ => false) times target maxAttempts i st).1.header
      else
        (innerLoop hashFn (fun _ => false) times target maxAttempts i st).2 = true ∧
        (innerLoop hashFn (fun _ => false) times target maxAttempts i st).1.nonce = n ∧
        (innerLoop hashFn (fun _ => false) times target maxAttempts i st).1.stats.hashesComputed
          = st.stats.hashesComputed + (n - st.nonce) + 1) := by
  intro i
  induction i with
  | zero =>
    intro st hsame hle
    rw [if_pos (by omega : st.nonce + 0 ≤ n),
      innerLoop_zero hashFn (fun _ => false) times target maxAttempts st]
    refine ⟨rfl, ?_, ?_, hsame⟩
    · show st.nonce = st.nonce + 0
      omega
    · show st.stats.hashesComputed = st.stats.hashesComputed + 0
      omega
  | succ i ih =>
    intro st hsame hle
    have hg : st.nonce < maxAttempts ∧ (fun _ => false : Nat → Bool) st.awaits = false :=
      ⟨by omega, rfl⟩
    obtain ⟨hh, hhc, hhash, haw, htc, hlu, hsnd, hcond⟩ :=
      mineStep_proj hashFn times target st
    have hdig : digestOf hashFn st.header st.nonce = digestOf hashFn header st.nonce :=
      digestOf_congr hsame st.nonce
    by_cases hsn : st.nonce = n
    · have hf : (mineStep hashFn times target st).2 = true := by
        rw [hsnd, hdig, hsn, hmeet]
      rw [if_neg (by omega : ¬ st.nonce + (i + 1) ≤ n),
        innerLoop_succ_true hashFn (fun _ => false) times target maxAttempts i st hg hf]
      rw [if_pos hf] at hcond
      obtain ⟨hn1, -⟩ := hcond
      refine ⟨rfl, ?_, ?_⟩
      · show (mineStep hashFn times target st).1.nonce = n
        omega
      · show (mineStep hashFn times target st).1.stats.hashesComputed
          = st.stats.hashesComputed + (n - st.nonce) + 1
        omega
    · have hlt : st.nonce < n := by omega
      have hf : (mineStep hashFn times target st).2 = false := by
        rw [hsnd, hdig, hmin st.nonce hlt]
      rw [innerLoop_succ_false hashFn (fun _ => false) times target maxAttempts i st hg hf]
      rw [hf] at hcond
      simp only [Bool.false_eq_true, if_false] at hcond
      obtain ⟨hn1, -⟩ := hcond
      have hsame2 : sameHeaderButNonce header (mineStep hashFn times target st).1.header := by
        rw [hh]
        exact sameHeaderButNonce_update hsame _
      have ih2 := ih (mineStep hashFn times target st).1 hsame2 (by omega)
      by_cases hc : st.nonce + (i + 1) ≤ n
      · rw [if_pos (by omega : (mineStep hashFn times target st).1.nonce + i ≤ n)] at ih2
        obtain ⟨j1, j2, j3, j4⟩ := ih2
        rw [if_pos hc]
        exact ⟨j1, by omega, by omega, j4⟩
      · rw [if_neg (by omega : ¬ (mineStep hashFn times target st).1.nonce + i ≤ n)] at ih2
        obtain ⟨j1, j2, j3⟩ := ih2
        rw [if_neg hc]
        exact ⟨j1, j2, by omega⟩

theorem outerLoop_run (hashFn : List Nat → List Nat) (times : Nat → ℚ)
    (target : List Char) (maxAttempts n : Nat) (header : BlockHeader)
    (hmeet : hashMeetsTarget (digestOf hashFn header n) target = true)
    (hmin : ∀ m, m < n → hashMeetsTarget (digestOf hashFn header m) target = false)
    (hn : n < maxAttempts) :
    ∀ (fuel : Nat) (st : MineState),
      sameHeaderButNonce header st.header →
      st.nonce ≤ n →
      n < st.nonce + fuel →
      (outerLoop hashFn (fun _ => false) times target maxAttempts fuel st).success = true ∧
      (outerLoop hashFn (fun _ => false) times target maxAttempts fuel st).nonce = n ∧
      (outerLoop hashFn (fun _ => false) times target maxAttempts fuel st).stats.hashesComputed
        = st.stats.hashesComputed + (n - st.nonce) + 1 := by
  intro fuel
  induction fuel with
  | zero =>
    intro st _ hle hfuel
    omega
  | succ fuel ih =>
    intro st hsame hle hfuel
    have hg : st.nonce < maxAttempts ∧ (fun _ => false : Nat → Bool) st.awaits = false :=
      ⟨by omega, rfl⟩
    have hrun := innerLoop_run hashFn times target maxAttempts n header hmeet hmin hn 100 st
      hsame hle
    by_cases hc : st.nonce + 100 ≤ n
    · rw [if_pos hc] at hrun
      obtain ⟨j1, j2, j3, j4⟩ := hrun
      rw [outerLoop_succ_cont hashFn (fun _ => false) times target maxAttempts fuel st hg j1]
      obtain ⟨hpn, hph, hpst, -, -⟩ :=
        periodicStep_proj times (innerLoop hashFn (fun _ => false) times target
          maxAttempts 100 st).1
      have ih2 := ih (periodicStep times (innerLoop hashFn (fun _ => false) times target
          maxAttempts 100 st).1) (by rw [hph]; exact j4) (by omega) (by omega)
      obtain ⟨k1, k2, k3⟩ := ih2
      refine ⟨k1, k2, ?_⟩
      rw [k3, hpst, hpn, j3, j2]
      omega
    · rw [if_neg hc] at hrun
      obtain ⟨j1, j2, j3⟩ := hrun
      rw [outerLoop_succ_found hashFn (fun _ => false) times target maxAttempts fuel st hg j1]
      exact ⟨rfl, j2, j3⟩

/-- C7: when no cancellation is requested, `maxAttempts` is large enough, and
`n` is the FIRST nonce whose double-hash digest meets the target (every
smaller nonce misses), `mineBlock` returns `success: true` with exactly that
nonce and reports `hashesComputed = n + 1` (one hash per nonce `0..n`). -/
theorem c7_first_meeting_nonce (hashFn : List Nat → List Nat) (times : Nat → ℚ)
    (header : BlockHeader) (maxAttempts n : Nat)
    (hn : n < maxAttempts)
    (hmeet : hashMeetsTarget (digestOf hashFn header n) (bitsToTarget header.bits) = true)
    (hmin : ∀ m, m < n →
      hashMeetsTarget (digestOf hashFn header m) (bitsToTarget header.bits) = false) :
    (mineBlock hashFn (fun _ => false) times header maxAttempts).success = true ∧
    (mineBlock hashFn (fun _ => false) times header maxAttempts).nonce = n ∧
    (mineBlock hashFn (fun _ => false) times header maxAttempts).stats.hashesComputed
      = n + 1 := by
  have h := outerLoop_run hashFn times (bitsToTarget header.bits) maxAttempts n header
    hmeet hmin hn (maxAttempts + 1)
    ⟨header, 0, [], ⟨0, times 0, 0, 0⟩, times 1, 2, 0, []⟩
    (sameHeaderButNonce_refl header) (Nat.zero_le n)
    (by show n < 0 + (maxAttempts + 1); omega)
  refine ⟨h.1, h.2.1, ?_⟩
  have h3 := h.2.2
  show (outerLoop hashFn (fun _ => false) times (bitsToTarget header.bits) maxAttempts
      (maxAttempts + 1)
      ⟨header, 0, [], ⟨0, times 0, 0, 0⟩, times 1, 2, 0, []⟩).stats.hashesComputed = n + 1
  rw [h3]
  show 0 + (n - 0) + 1 = n + 1
  omega

theorem c7_first_meeting_nonce_witness :
    (mineBlock (fun _ => List.replicate 32 0) (fun _ => false) (fun _ => 0)
      ⟨0x20000000, List.replicate 64 'a', List.replicate 64 'b', 1700000000, 0x207fffff, 0⟩
      1).success = true ∧
    (mineBlock (fun _ => List.replicate 32 0) (fun _ => false) (fun _ => 0)
      ⟨0x20000000, List.replicate 64 'a', List.replicate 64 'b', 1700000000, 0x207fffff, 0⟩
      1).nonce = 0 ∧
    (mineBlock (fun _ => List.replicate 32 0) (fun _ => false) (fun _ => 0)
      ⟨0x20000000, List.replicate 64 'a', List.replicate 64 'b', 1700000000, 0x207fffff, 0⟩
      1).stats.hashesComputed = 0 + 1 :=
  c7_first_meeting_nonce (fun _ => List.replicate 32 0) (fun _ => 0)
    ⟨0x20000000, List.replicate 64 'a', List.replicate 64 'b', 1700000000, 0x207fffff, 0⟩
    1 0 (by decide) (by decide) (fun m hm => absurd hm (Nat.not_lt_zero m))
